import Mathlib

/-!
Verification of the `smart` proxy/download service
(`pages/api/proxy.js`, `pages/api/download.js`).

The two request handlers, the URL guard, the WHATWG-style URL
parsing/resolution that backs node's `new URL` as the handlers use it, and
the cheerio-based HTML attribute rewriting / script injection are embedded
as executable Lean definitions.  Machine strings are Lean `String`s
(internally lists of characters).

Model scope for the `URL` embedding (the handlers call `new URL(x)` and
`new URL(val, base)` from node's WHATWG implementation):
* schemes, authorities (userinfo stripped at the last `@`, host, decimal
  port), hierarchical paths with dot-segment removal, opaque paths
  (`mailto:x`), queries and fragments are modelled;
* hostname case normalisation of the WHATWG parser is performed where the
  hostname is consumed (`hostnameOf`), the stored host keeps its spelling;
* percent-encoding normalisation, IPv6/IPv4 host forms, tab/newline
  stripping and the `file:` special cases are outside the model; `file:`
  URLs parse through the generic non-special branch, which still yields an
  empty hostname for `file:///...` exactly as the real parser does.
-/

namespace Smart

/-- Characters permitted in a URL scheme (WHATWG scheme state). -/
def schemeChar (c : Char) : Bool :=
  c.isAlpha || c.isDigit || c == '+' || c == '-' || c == '.'

/-- Split a character list at the first character satisfying `p`: returns the
prefix before it and, when found, the remainder after (excluding) it. -/
def splitFirst (p : Char → Bool) : List Char → List Char × Option (List Char)
  | [] => ([], none)
  | c :: cs =>
    if p c then ([], some cs)
    else (c :: (splitFirst p cs).1, (splitFirst p cs).2)

/-- Split on a delimiter character (like JS `String.prototype.split` with a
single-character separator); always returns a non-empty list. -/
def splitOnChar (d : Char) : List Char → List (List Char)
  | [] => [[]]
  | c :: cs =>
    if c = d then [] :: splitOnChar d cs
    else
      match splitOnChar d cs with
      | [] => [[c]]
      | s :: rest => (c :: s) :: rest

/-- Join segments with a delimiter (inverse of `splitOnChar`). -/
def joinSegs (d : Char) : List (List Char) → List Char
  | [] => []
  | [s] => s
  | s :: rest => s ++ d :: joinSegs d rest

/-- Dot-segment removal (WHATWG path state): `.` segments vanish, `..` pops,
and a trailing `.`/`..` leaves a trailing empty segment (trailing slash). -/
def rds (acc : List (List Char)) : List (List Char) → List (List Char)
  | [] => acc.reverse
  | [s] =>
    if s = ['.'] then ([] :: acc).reverse
    else if s = ['.', '.'] then ([] :: acc.tail).reverse
    else (s :: acc).reverse
  | s :: rest =>
    if s = ['.'] then rds acc rest
    else if s = ['.', '.'] then rds acc.tail rest
    else rds (s :: acc) rest

/-- Remove dot segments from a parsed path. -/
def removeDots (l : List (List Char)) : List (List Char) := rds [] l

/-- Scan the scheme part: characters accumulated until `:`. -/
def schemeGo (acc : List Char) : List Char → Option (List Char × List Char)
  | [] => none
  | c :: cs =>
    if c = ':' then some (acc.reverse, cs)
    else if schemeChar c then schemeGo (c :: acc) cs
    else none

/-- Split `scheme:rest`; fails when the input has no leading scheme, i.e.
when it is not an absolute URL reference (WHATWG scheme start/scheme state:
the first character must be an ASCII letter). -/
def splitScheme : List Char → Option (List Char × List Char)
  | [] => none
  | c :: cs => if c.isAlpha then schemeGo [c] cs else none

/-- Strip userinfo: the part of an authority after its last `@`. -/
def afterLastAt (l : List Char) : List Char :=
  ((l.reverse.takeWhile (fun c => c != '@')).reverse)

/-- WHATWG treats `\` as `/` in special-scheme URLs. -/
def slashFix (c : Char) : Char := if c = '\\' then '/' else c

/-- Numeric value of a decimal digit string. -/
def digitsToNat (l : List Char) : Nat := l.foldl (fun n c => n * 10 + (c.toNat - 48)) 0

/-- Strip leading zeros from a digit string, keeping a single `0`. -/
def normZeros (l : List Char) : List Char :=
  match l.dropWhile (fun c => c == '0') with
  | [] => ['0']
  | r => r

/-- Characters the WHATWG host parser rejects inside a hostname. -/
def badHostChar (c : Char) : Bool :=
  c == '/' || c == '?' || c == '#' || c == '@' || c == ':' || c == '[' || c == ']' ||
  c == '\\' || c == '<' || c == '>' || c == '^' || c == '|' || c == ' '

/-- The special schemes of the WHATWG standard whose URLs always carry an
authority.  `file` is handled through the generic branch in this model. -/
def specialScheme (sch : List Char) : Bool :=
  let l := sch.map Char.toLower
  l == "http".data || l == "https".data || l == "ws".data || l == "wss".data || l == "ftp".data

/-- A parsed URL is hierarchical (authority + path segments) or opaque. -/
inductive URLKind where
  | hier (host : List Char) (port : Option (List Char)) (segs : List (List Char))
  | opq (path : List Char)
deriving DecidableEq

/-- The record behind node's `URL` object, as far as the handlers consume it. -/
structure URLRecord where
  scheme : List Char
  kind : URLKind
  query : Option (List Char)
  fragment : Option (List Char)
deriving DecidableEq

/-- Parse an authority into host and port (userinfo stripped, host character
validation, decimal port bounded by 65535). -/
def parseHostPort (special : Bool) (auth : List Char) : Option (List Char × Option (List Char)) :=
  let hp := afterLastAt auth
  let s := splitFirst (fun c => c == ':') hp
  let host := s.1
  if host.any badHostChar then none
  else if special && host.isEmpty then none
  else
    match s.2 with
    | none => some (host, none)
    | some ds =>
      if ds.isEmpty then some (host, none)
      else if ds.all Char.isDigit then
        let ds' := normZeros ds
        if digitsToNat ds' ≤ 65535 then some (host, some ds') else none
      else none

/-- Parse the part after the scheme (and after any authority slashes) of a
URL with an authority: `host[:port][/path][?query][#fragment]`. -/
def parseHier (sch : List Char) (special : Bool) (r : List Char) : Option URLRecord :=
  let f := splitFirst (fun c => c == '#') r
  let q := splitFirst (fun c => c == '?') f.1
  let a := splitFirst (fun c => c == '/') q.1
  match parseHostPort special a.1 with
  | none => none
  | some (host, port) =>
    let segs :=
      match a.2 with
      | none => if special then [[]] else []
      | some p => removeDots (splitOnChar '/' p)
    some ⟨sch, .hier host port segs, q.2, f.2⟩

/-- Parse the part after the scheme of an opaque-path URL. -/
def parseOpq (sch : List Char) (r : List Char) : Option URLRecord :=
  let f := splitFirst (fun c => c == '#') r
  let q := splitFirst (fun c => c == '?') f.1
  some ⟨sch, .opq q.1, q.2, f.2⟩

/-- Does a character list start with `//`? -/
def startsDslash (l : List Char) : Bool :=
  decide (l.take 2 = ['/', '/'])

/-- `new URL(input)` with no base: parse an absolute URL, `none` = throw. -/
def parseAbs (l : List Char) : Option URLRecord :=
  match splitScheme l with
  | none => none
  | some (sch, rest) =>
    if specialScheme sch then
      parseHier sch true ((rest.map slashFix).dropWhile (fun c => c == '/'))
    else if startsDslash rest then parseHier sch false (rest.drop 2)
    else parseOpq sch rest

def serializePort : Option (List Char) → List Char
  | none => []
  | some ds => ':' :: ds

def serializePath : List (List Char) → List Char
  | [] => []
  | s :: rest => '/' :: joinSegs '/' (s :: rest)

def serializeQF (pre : Char) : Option (List Char) → List Char
  | none => []
  | some x => pre :: x

/-- `url.toString()` / `url.href`. -/
def serializeURL (u : URLRecord) : List Char :=
  u.scheme ++ ':' ::
    ((match u.kind with
      | .hier host port segs => '/' :: '/' :: (host ++ serializePort port ++ serializePath segs)
      | .opq p => p)
     ++ serializeQF '?' u.query ++ serializeQF '#' u.fragment)

def serializeStr (u : URLRecord) : String := String.mk (serializeURL u)

/-- Resolve a relative reference against a base (WHATWG relative state).
Fails (`none` = `new URL` throws) against an opaque-path base unless the
reference is a pure fragment. -/
def resolveRel (input : List Char) (base : URLRecord) : Option URLRecord :=
  match base.kind with
  | .opq _ =>
    match input with
    | c :: f => if c = '#' then some { base with fragment := some f } else none
    | [] => none
  | .hier host port bsegs =>
    let special := specialScheme base.scheme
    let l := if special then input.map slashFix else input
    if startsDslash l then
      if special then parseHier base.scheme true (l.dropWhile (fun c => c == '/'))
      else parseHier base.scheme false (l.drop 2)
    else
      let f := splitFirst (fun c => c == '#') l
      let q := splitFirst (fun c => c == '?') f.1
      match q.1 with
      | [] =>
        match q.2 with
        | none => some { base with fragment := f.2 }
        | some qq => some { base with query := some qq, fragment := f.2 }
      | c :: p' =>
        if c = '/' then
          some ⟨base.scheme, .hier host port (removeDots (splitOnChar '/' p')), q.2, f.2⟩
        else
          some ⟨base.scheme,
            .hier host port (removeDots (bsegs.dropLast ++ splitOnChar '/' (c :: p'))),
            q.2, f.2⟩

/-- `new URL(v, base)`: an absolute reference stands on its own, except that
a special scheme equal to the base's scheme without `//` re-enters relative
parsing (WHATWG "special relative or authority" state); everything else is
resolved relative to the base. -/
def resolveURL (v : List Char) (base : URLRecord) : Option URLRecord :=
  match splitScheme v with
  | some (sch, rest) =>
    if specialScheme sch && (sch.map Char.toLower == base.scheme.map Char.toLower)
        && !(startsDslash rest) then
      resolveRel rest base
    else parseAbs v
  | none => resolveRel v base

/-- `new URL(s)` on a Lean string. -/
def parseURL (s : String) : Option URLRecord := parseAbs s.data

/-- `url.hostname`: the WHATWG parser lower-cases hosts of special-scheme
URLs; opaque-path URLs have an empty hostname. -/
def hostnameOf (u : URLRecord) : String :=
  match u.kind with
  | .hier host _ _ =>
    if specialScheme u.scheme then String.mk (host.map Char.toLower) else String.mk host
  | .opq _ => ""

/-- `url.pathname`. -/
def pathnameOf (u : URLRecord) : String :=
  match u.kind with
  | .hier _ _ segs => String.mk (serializePath segs)
  | .opq p => String.mk p

/-! ## The URL guard of the two handlers -/

/-- JS `String.prototype.startsWith`, as a character-prefix test. -/
def strStarts (s pre : String) : Bool := pre.data.isPrefixOf s.data

/-- JS `String.prototype.endsWith`, as a character-suffix test. -/
def strEnds (s suf : String) : Bool := suf.data.isSuffixOf s.data

/-- proxy.js line 21: the denylist test on `u.hostname`. -/
def isLocalProxy (host : String) : Bool :=
  host == "localhost" || host == "127.0.0.1" ||
  strStarts host "192.168." || strEnds host ".internal"

/-- download.js line 19: the denylist test on `u.hostname` (note: no
`.internal` suffix check in this handler). -/
def isLocalDownload (host : String) : Bool :=
  host == "localhost" || host == "127.0.0.1" || strStarts host "192.168."

/-! ## Outbound fetch calls -/

/-- One outbound `fetch(...)` call with the options the handlers pass. -/
structure FetchCall where
  url : String
  method : String
  headers : List (String × String)
  redirect : String
deriving DecidableEq

/-- proxy.js lines 31-37: GET with an explicit User-Agent header. -/
def proxyFetchCall (target : String) : FetchCall :=
  ⟨target, "GET", [("User-Agent", "Mozilla/5.0 (compatible; VercelProxy/1.0)")], "follow"⟩

/-- download.js line 27: the HEAD request (no headers passed). -/
def downloadHeadCall (fileUrl : String) : FetchCall :=
  ⟨fileUrl, "HEAD", [], "follow"⟩

/-- download.js line 36: the GET request (no headers passed). -/
def downloadGetCall (fileUrl : String) : FetchCall :=
  ⟨fileUrl, "GET", [], "follow"⟩

/-! ## JS library functions used by download.js -/

/-- JS whitespace accepted by `parseInt`. -/
def isJsSpace (c : Char) : Bool :=
  c == ' ' || c == '\t' || c == '\n' || c == '\r' || c == '\x0b' || c == '\x0c'

def hexVal (c : Char) : Option Nat :=
  if 48 ≤ c.toNat && c.toNat ≤ 57 then some (c.toNat - 48)
  else if 97 ≤ c.toNat && c.toNat ≤ 102 then some (c.toNat - 87)
  else if 65 ≤ c.toNat && c.toNat ≤ 70 then some (c.toNat - 55)
  else none

def isHexDigit (c : Char) : Bool := (hexVal c).isSome

def hexToNat (l : List Char) : Nat :=
  l.foldl (fun n c => n * 16 + (hexVal c).getD 0) 0

/-- The digit part of JS `parseInt` with no radix argument: a `0x`/`0X`
prefix selects hexadecimal, otherwise the longest decimal-digit prefix is
taken; no digits means NaN (`none`). -/
def jsParseDigits (l : List Char) : Option Nat :=
  match l with
  | '0' :: 'x' :: r =>
    let ds := r.takeWhile isHexDigit
    if ds.isEmpty then none else some (hexToNat ds)
  | '0' :: 'X' :: r =>
    let ds := r.takeWhile isHexDigit
    if ds.isEmpty then none else some (hexToNat ds)
  | _ =>
    let ds := l.takeWhile Char.isDigit
    if ds.isEmpty then none else some (digitsToNat ds)

/-- JS `parseInt(s)`: skip whitespace, optional sign, digit prefix. -/
def jsParseInt (s : String) : Option Int :=
  match s.data.dropWhile isJsSpace with
  | '-' :: r => (jsParseDigits r).map (fun n => -(n : Int))
  | '+' :: r => (jsParseDigits r).map (fun n => (n : Int))
  | r => (jsParseDigits r).map (fun n => (n : Int))

/-- download.js line 29: `cl && parseInt(cl) > 30 * 1024 * 1024` (a missing
or empty header is falsy; a NaN comparison is false). -/
def clExceeds (cl : Option String) : Bool :=
  match cl with
  | none => false
  | some s =>
    if s == "" then false
    else
      match jsParseInt s with
      | some n => decide (n > 30 * 1024 * 1024)
      | none => false

/-- Percent-decoding tokens: a raw character or a `%XX` byte. -/
inductive PctTok where
  | raw (c : Char)
  | byte (b : Nat)

/-- Tokenize for `decodeURIComponent`: each `%` must begin `%XX` with two
hex digits, other characters pass through. -/
def pctToks : List Char → Option (List PctTok)
  | [] => some []
  | '%' :: c1 :: c2 :: rest =>
    match hexVal c1, hexVal c2 with
    | some h1, some h2 => (pctToks rest).map (fun ts => .byte (h1 * 16 + h2) :: ts)
    | _, _ => none
  | '%' :: _ => none
  | c :: rest => (pctToks rest).map (fun ts => .raw c :: ts)

def utf8Cont (b : Nat) : Bool := 128 ≤ b && b < 192

/-- Decode the token stream, assembling UTF-8 sequences from `%XX` bytes
(overlong forms are not rejected; invalid sequences and invalid code points
fail like `decodeURIComponent` throwing `URIError`). -/
def pctAssemble : List PctTok → Option (List Char)
  | [] => some []
  | .raw c :: ts => (pctAssemble ts).map (fun l => c :: l)
  | .byte b :: ts =>
    if b < 128 then (pctAssemble ts).map (fun l => Char.ofNat b :: l)
    else if 192 ≤ b && b < 224 then
      match ts with
      | .byte b2 :: ts' =>
        if utf8Cont b2 then
          let cp := (b - 192) * 64 + (b2 - 128)
          if Nat.isValidChar cp then (pctAssemble ts').map (fun l => Char.ofNat cp :: l)
          else none
        else none
      | _ => none
    else if 224 ≤ b && b < 240 then
      match ts with
      | .byte b2 :: .byte b3 :: ts' =>
        if utf8Cont b2 && utf8Cont b3 then
          let cp := (b - 224) * 4096 + (b2 - 128) * 64 + (b3 - 128)
          if Nat.isValidChar cp then (pctAssemble ts').map (fun l => Char.ofNat cp :: l)
          else none
        else none
      | _ => none
    else if 240 ≤ b && b < 248 then
      match ts with
      | .byte b2 :: .byte b3 :: .byte b4 :: ts' =>
        if utf8Cont b2 && utf8Cont b3 && utf8Cont b4 then
          let cp := (b - 240) * 262144 + (b2 - 128) * 4096 + (b3 - 128) * 64 + (b4 - 128)
          if Nat.isValidChar cp then (pctAssemble ts').map (fun l => Char.ofNat cp :: l)
          else none
        else none
      | _ => none
    else none

/-- JS `decodeURIComponent`; `none` models a thrown `URIError`. -/
def decodeURIComponentJs (s : String) : Option String :=
  match pctToks s.data with
  | none => none
  | some ts => (pctAssemble ts).map String.mk

/-- download.js lines 42-48: derive the attachment filename from the last
path segment; any failure (no segment, bad percent escape) keeps the
default `download`. -/
def deriveFilename (fileUrl : String) : String :=
  match parseURL fileUrl with
  | none => "download"
  | some u =>
    let p := pathnameOf u
    match (splitOnChar '/' p.data).getLastD [] with
    | [] => "download"
    | lastSeg =>
      match decodeURIComponentJs (String.mk lastSeg) with
      | some d => d
      | none => "download"

/-! ## The /proxy handler -/

/-- The origin response as the proxy consumes it: the content-type header
and the fully read text. `none` at the call site models a thrown fetch. -/
structure FetchResp where
  contentType : Option String
  body : String
deriving DecidableEq

inductive ProxyResult where
  | missing
  | invalid
  | localAddr
  | fetchErr
  | redirect (loc : String)
  | ok (body : String)
deriving DecidableEq

def proxyStatus : ProxyResult → Nat
  | .missing => 400
  | .invalid => 400
  | .localAddr => 400
  | .fetchErr => 500
  | .redirect _ => 302
  | .ok _ => 200

def proxyBody : ProxyResult → String
  | .missing => "Missing url query parameter"
  | .invalid => "Invalid URL"
  | .localAddr => "Local addresses not allowed"
  | .fetchErr => "Proxy fetch error"
  | .redirect _ => ""
  | .ok b => b

/-- The Content-Type header set on the proxy's own response. -/
def proxyContentType : ProxyResult → Option String
  | .ok _ => some "text/html; charset=utf-8"
  | _ => none

/-- JS substring containment (`String.prototype.includes`). -/
def hasSubstr (l pat : List Char) : Bool :=
  if pat.isPrefixOf l then true
  else
    match l with
    | [] => false
    | _ :: t => hasSubstr t pat

def strIncludes (s pat : String) : Bool := hasSubstr s.data pat.data

/-- pages/api/proxy.js `handler`.  `target?` is `req.query.url` (`none` =
absent), `resp?` is the outcome of the one outbound fetch (`none` = it
threw), `rw` abstracts the cheerio rewrite pipeline applied to the fetched
text (modelled separately on parsed documents).  Returns the response
together with the list of outbound fetch calls made. -/
def proxyHandler (rw : String → String) (target? : Option String)
    (resp? : Option FetchResp) : ProxyResult × List FetchCall :=
  match target? with
  | none => (.missing, [])
  | some target =>
    if target == "" then (.missing, [])
    else
      match parseURL target with
      | none => (.invalid, [])
      | some u =>
        if isLocalProxy (hostnameOf u) then (.localAddr, [])
        else
          match resp? with
          | none => (.fetchErr, [proxyFetchCall target])
          | some r =>
            let contentType := r.contentType.getD ""
            if !(strIncludes contentType "text/html") then
              (.redirect target, [proxyFetchCall target])
            else (.ok (rw r.body), [proxyFetchCall target])

/-! ## The /download handler -/

/-- The HEAD response: only its content-length header is consumed. -/
structure HeadResp where
  contentLength : Option String
deriving DecidableEq

/-- The GET response as the download handler consumes it. -/
structure GetResp where
  ok : Bool
  contentType : Option String
  streamable : Bool
deriving DecidableEq

inductive DownloadResult where
  | missing
  | localAddr
  | err
  | redirect (loc : String)
  | badGateway
  | stream (filename : String) (contentType : String) (piped : Bool)
deriving DecidableEq

def downloadStatus : DownloadResult → Nat
  | .missing => 400
  | .localAddr => 400
  | .err => 500
  | .redirect _ => 302
  | .badGateway => 502
  | .stream _ _ _ => 200

def downloadBody : DownloadResult → String
  | .missing => "Missing url"
  | .localAddr => "Local addresses not allowed"
  | .err => "Download error"
  | .badGateway => "Failed to fetch file"
  | _ => ""

/-- pages/api/download.js `handler`.  `fileUrl?` is `req.query.url`,
`head?`/`get?` are the outcomes of the HEAD and GET fetches (`none` = the
await threw).  An unparsable URL throws inside the outer `try` and lands in
the catch-all 500 branch.  Returns the response and the outbound calls. -/
def downloadHandler (fileUrl? : Option String) (head? : Option HeadResp)
    (get? : Option GetResp) : DownloadResult × List FetchCall :=
  match fileUrl? with
  | none => (.missing, [])
  | some fileUrl =>
    if fileUrl == "" then (.missing, [])
    else
      match parseURL fileUrl with
      | none => (.err, [])
      | some u =>
        if isLocalDownload (hostnameOf u) then (.localAddr, [])
        else
          match head? with
          | none => (.err, [downloadHeadCall fileUrl])
          | some h =>
            if clExceeds h.contentLength then
              (.redirect fileUrl, [downloadHeadCall fileUrl])
            else
              match get? with
              | none => (.err, [downloadHeadCall fileUrl, downloadGetCall fileUrl])
              | some g =>
                if !g.ok then
                  (.badGateway, [downloadHeadCall fileUrl, downloadGetCall fileUrl])
                else
                  (.stream (deriveFilename fileUrl) (g.contentType.getD "application/octet-stream")
                     g.streamable,
                   [downloadHeadCall fileUrl, downloadGetCall fileUrl])

/-! ## The HTML rewrite pipeline (cheerio side of proxy.js)

The cheerio document is a tree of element and text nodes; the rewrite
pipeline operates on the parsed tree (string → tree parsing is cheerio's
own concern and is not part of the handler logic under verification). -/

inductive HNode where
  | elem (tag : String) (attrs : List (String × String)) (children : List HNode)
  | text (s : String)

/-- Case-insensitive prefix test against an already-lowercase pattern
(the `/^(data:|mailto:|javascript:|#)/i` test of proxy.js line 61). -/
def lowerPfx (pat v : String) : Bool :=
  pat.data.isPrefixOf (v.data.map Char.toLower)

/-- proxy.js lines 59-61: skip empty/absent values (`!val`, an empty
attribute string is falsy) and `data:`, `mailto:`, `javascript:`, `#`
prefixed values. -/
def skipVal (v : String) : Bool :=
  v == "" || lowerPfx "data:" v || lowerPfx "mailto:" v ||
  lowerPfx "javascript:" v || lowerPfx "#" v

/-- proxy.js lines 58-67, the per-value transform of `makeAbs`: skip, else
`new URL(val, base).toString()`, and on a thrown resolution keep the value. -/
def rewriteAttrVal (base : URLRecord) (v : String) : String :=
  if skipVal v then v
  else
    match resolveURL v.data base with
    | some u => serializeStr u
    | none => v

/-- `$(el).attr(attr, abs)`: rewrite the value stored under a key. -/
def updAttr (k : String) (g : String → String) (a : List (String × String)) :
    List (String × String) :=
  a.map (fun p => if p.1 = k then (p.1, g p.2) else p)

mutual
/-- Apply an attribute-list transform (dispatched on the tag) to every
element of the tree, leaf to root. -/
def rwNode (f : String → List (String × String) → List (String × String)) : HNode → HNode
  | .elem t a ch => .elem t (f t a) (rwNodes f ch)
  | .text s => .text s

def rwNodes (f : String → List (String × String) → List (String × String)) :
    List HNode → List HNode
  | [] => []
  | n :: ns => rwNode f n :: rwNodes f ns
end

/-- The attribute transform of one `makeAbs(0, tag, attr)` call. -/
def makeAbsStep (base : URLRecord) (tag attr : String) (t : String)
    (a : List (String × String)) : List (String × String) :=
  if t = tag then updAttr attr (rewriteAttrVal base) a else a

/-- proxy.js lines 56-69 `makeAbs`: rewrite attribute `attr` of every
element with tag `tag`. -/
def makeAbs (base : URLRecord) (tag attr : String) (doc : List HNode) : List HNode :=
  rwNodes (makeAbsStep base tag attr) doc

/-- proxy.js lines 70-75: the six attribute classes, in call order. -/
def attrClasses : List (String × String) :=
  [("a", "href"), ("img", "src"), ("script", "src"),
   ("link", "href"), ("video", "src"), ("source", "src")]

/-- The whole absolutization pass: the six `makeAbs` calls in order. -/
def rewriteAll (base : URLRecord) (doc : List HNode) : List HNode :=
  attrClasses.foldl (fun d tk => makeAbs base tk.1 tk.2 d) doc

/-- The text between `<script>` and `</script>` of the template literal at
proxy.js lines 78-112 (the media probe script), with JS escape sequences of
the template resolved. -/
def probeScriptSrc : String :=
  "\n(function()\x7b\n  function findMedia()\x7b\n    const list = [];\n    // video tags\n    document.querySelectorAll(\x27video\x27).forEach(v => \x7b\n      try \x7b\n        const src = v.currentSrc || v.src || (v.querySelector(\x27source\x27) && v.querySelector(\x27source\x27).src);\n        if (src && src.match(/\\.mp4(\\?|$)/i)) list.push(\x7burl: src, title: (v.getAttribute(\x27title\x27)||document.title||\x27video\x27)\x7d);\n      \x7d catch(e)\x7b\x7d\n    \x7d);\n    // anchors that link to mp4\n    document.querySelectorAll(\x27a\x27).forEach(a=>\x7b\n      try \x7b\n        const h = a.href;\n        if (h && h.match(/\\.mp4(\\?|$)/i)) list.push(\x7burl: h, title: a.innerText.trim() || document.title\x7d);\n      \x7d catch(e)\x7b\x7d\n    \x7d);\n    // dedupe\n    const uniq = [];\n    const seen = new Set();\n    list.forEach(it=>\x7b\n      if(!seen.has(it.url))\x7b seen.add(it.url); uniq.push(it); \x7d\n    \x7d);\n    parent.postMessage(\x7btype:\x27foundMedia\x27, items: uniq\x7d, \x27*\x27);\n  \x7d\n\n  findMedia();\n  setTimeout(findMedia, 1500);\n  const obs = new MutationObserver(findMedia);\n  try \x7b obs.observe(document.body || document.documentElement, \x7bchildList:true, subtree:true\x7d); \x7d catch(e)\x7b\x7d\n\x7d)();\n"

/-- The node list cheerio parses the injected template into: leading
newline text, the probe script element, trailing indentation text. -/
def injectedNodes : List HNode :=
  [.text "\n", .elem "script" [] [.text probeScriptSrc], .text "\n    "]

mutual
/-- proxy.js line 114 `$(\x27body\x27).append(injected)`: append the parsed
injected nodes to the children of every `body` element; with no `body`
element the call matches nothing and is a no-op. -/
def injectNode : HNode → HNode
  | .elem t a ch => .elem t a (injectNodes ch ++ (if t = "body" then injectedNodes else []))
  | .text s => .text s

def injectNodes : List HNode → List HNode
  | [] => []
  | n :: ns => injectNode n :: injectNodes ns
end

/-- Is a child list exactly one text node holding the probe script? -/
def probeChild : List HNode → Bool
  | [] => false
  | [HNode.text s] => decide (s = probeScriptSrc)
  | [HNode.elem _ _ _] => false
  | _ :: _ :: _ => false

/-- Is this element exactly the appended probe script block? -/
def isProbeElem (t : String) (a : List (String × String)) (ch : List HNode) : Bool :=
  if t = "script" then (if a = [] then probeChild ch else false) else false

mutual
def probeCountN : HNode → Nat
  | .elem t a ch => (if isProbeElem t a ch then 1 else 0) + probeCountL ch
  | .text _ => 0

def probeCountL : List HNode → Nat
  | [] => 0
  | n :: ns => probeCountN n + probeCountL ns
end

mutual
def bodyCountN : HNode → Nat
  | .elem t _ ch => (if t = "body" then 1 else 0) + bodyCountL ch
  | .text _ => 0

def bodyCountL : List HNode → Nat
  | [] => 0
  | n :: ns => bodyCountN n + bodyCountL ns
end

/-- The complete rewrite of a parsed document: absolutize the six attribute
classes, then inject the probe script (proxy.js lines 52-114). -/
def rewriteDoc (base : URLRecord) (doc : List HNode) : List HNode :=
  injectNodes (rewriteAll base doc)

/-! ## Well-formedness of parsed URL records

`validURL` is the executable invariant every record produced by
`parseAbs`/`resolveURL` satisfies; it is exactly what makes the serializer
a right inverse of the parser. -/

def schemeOKb (sch : List Char) : Bool :=
  match sch with
  | [] => false
  | c :: _ => c.isAlpha && sch.all schemeChar

def hostOKb (special : Bool) (h : List Char) : Bool :=
  !(h.any badHostChar) && (!special || !h.isEmpty)

def portOKb (ds : List Char) : Bool :=
  !ds.isEmpty && ds.all Char.isDigit && ds == normZeros ds && decide (digitsToNat ds ≤ 65535)

def segOKb (special : Bool) (s : List Char) : Bool :=
  !(s.contains '/') && !(s.contains '?') && !(s.contains '#') &&
  !(s == ['.']) && !(s == ['.', '.']) && (!special || !(s.contains '\\'))

def optOKb (p : List Char → Bool) : Option (List Char) → Bool
  | none => true
  | some x => p x

def queryOKb (special : Bool) (q : List Char) : Bool :=
  !(q.contains '#') && (!special || !(q.contains '\\'))

def fragOKb (special : Bool) (f : List Char) : Bool :=
  !special || !(f.contains '\\')

def validKindQF (special : Bool) (kind : URLKind) (q fr : Option (List Char)) : Bool :=
  (match kind with
   | .hier h p segs =>
     hostOKb special h && optOKb portOKb p &&
     segs.all (segOKb special) && (!special || !segs.isEmpty)
   | .opq op =>
     !special && !(op.contains '?') && !(op.contains '#') && !(startsDslash op)) &&
  optOKb (queryOKb special) q && optOKb (fragOKb special) fr

def validURL (u : URLRecord) : Bool :=
  schemeOKb u.scheme && validKindQF (specialScheme u.scheme) u.kind u.query u.fragment

/-- `url.protocol` without the colon (for stating scheme claims). -/
def schemeOf (u : URLRecord) : String := String.mk u.scheme

/-- The six `makeAbs` attribute transforms of proxy.js lines 70-75 fused
into one per-element function (innermost = first call). -/
def sixF (base : URLRecord) (t : String) (a : List (String × String)) :
    List (String × String) :=
  makeAbsStep base "source" "src" t
    (makeAbsStep base "video" "src" t
      (makeAbsStep base "link" "href" t
        (makeAbsStep base "script" "src" t
          (makeAbsStep base "img" "src" t
            (makeAbsStep base "a" "href" t a)))))

/-! ## Lemmas about the scanning primitives -/

theorem splitFirst_none (p : Char → Bool) (l : List Char) (h : ∀ c ∈ l, p c = false) :
    splitFirst p l = (l, none) := by
  induction l with
  | nil => rfl
  | cons c cs ih =>
    have hc := h c (List.mem_cons_self c cs)
    simp [splitFirst, hc, ih (fun x hx => h x (List.mem_cons_of_mem c hx))]

theorem splitFirst_app (p : Char → Bool) (xs : List Char) (d : Char) (ys : List Char)
    (hxs : ∀ c ∈ xs, p c = false) (hd : p d = true) :
    splitFirst p (xs ++ d :: ys) = (xs, some ys) := by
  induction xs with
  | nil => simp [splitFirst, hd]
  | cons c cs ih =>
    have hc := hxs c (List.mem_cons_self c cs)
    simp [splitFirst, hc, ih (fun x hx => hxs x (List.mem_cons_of_mem c hx))]

theorem splitFirst_fst (p : Char → Bool) (l : List Char) :
    ∀ c ∈ (splitFirst p l).1, p c = false := by
  induction l with
  | nil => simp [splitFirst]
  | cons c cs ih =>
    by_cases hc : p c
    · simp [splitFirst, hc]
    · have hc' : p c = false := by simpa using hc
      intro x hx
      rw [splitFirst, if_neg (by simp [hc'])] at hx
      rcases List.mem_cons.mp hx with h | h
      · rw [h]; exact hc'
      · exact ih x h

theorem splitFirst_decomp (p : Char → Bool) (l : List Char) :
    ∀ a r, splitFirst p l = (a, some r) → ∃ d, p d = true ∧ l = a ++ d :: r := by
  induction l with
  | nil => intro a r h; simp [splitFirst] at h
  | cons c cs ih =>
    intro a r h
    by_cases hc : p c
    · rw [splitFirst, if_pos hc] at h
      obtain ⟨rfl, rfl⟩ : [] = a ∧ cs = r := by
        refine ⟨?_, ?_⟩
        · exact congrArg Prod.fst h
        · simpa using congrArg Prod.snd h
      exact ⟨c, hc, rfl⟩
    · rcases hsf : splitFirst p cs with ⟨a', r'⟩
      rw [splitFirst, if_neg hc, hsf] at h
      obtain ⟨rfl, rfl⟩ : c :: a' = a ∧ r' = some r := by
        exact ⟨congrArg Prod.fst h, congrArg Prod.snd h⟩
      obtain ⟨d, hd, hcs⟩ := ih a' r hsf
      exact ⟨d, hd, by rw [List.cons_append, ← hcs]⟩

theorem splitFirst_none_eq (p : Char → Bool) (l : List Char) :
    ∀ a, splitFirst p l = (a, none) → a = l := by
  induction l with
  | nil => intro a h; exact (congrArg Prod.fst h).symm
  | cons c cs ih =>
    intro a h
    by_cases hc : p c
    · rw [splitFirst, if_pos hc] at h
      exact absurd (congrArg Prod.snd h) (by simp)
    · rcases hsf : splitFirst p cs with ⟨a', r'⟩
      rw [splitFirst, if_neg hc, hsf] at h
      obtain ⟨rfl, rfl⟩ : c :: a' = a ∧ r' = none := by
        exact ⟨congrArg Prod.fst h, congrArg Prod.snd h⟩
      exact congrArg (c :: ·) (ih a' hsf)

theorem splitOnChar_ne_nil (d : Char) (l : List Char) : splitOnChar d l ≠ [] := by
  induction l with
  | nil => simp [splitOnChar]
  | cons c cs ih =>
    rw [splitOnChar]
    by_cases h : c = d
    · simp [h]
    · rw [if_neg h]
      rcases hr : splitOnChar d cs with _ | ⟨s, rest⟩
      · simp
      · simp

theorem splitOnChar_single (d : Char) (l : List Char) (h : ∀ c ∈ l, c ≠ d) :
    splitOnChar d l = [l] := by
  induction l with
  | nil => rfl
  | cons c cs ih =>
    rw [splitOnChar, if_neg (h c (List.mem_cons_self c cs)),
      ih (fun x hx => h x (List.mem_cons_of_mem c hx))]

theorem splitOnChar_delim (d : Char) (s t : List Char) (h : ∀ c ∈ s, c ≠ d) :
    splitOnChar d (s ++ d :: t) = s :: splitOnChar d t := by
  induction s with
  | nil => simp [splitOnChar]
  | cons c cs ih =>
    rw [List.cons_append, splitOnChar, if_neg (h c (List.mem_cons_self c cs)),
      ih (fun x hx => h x (List.mem_cons_of_mem c hx))]

theorem joinSegs_split (d : Char) (xss : List (List Char)) (hne : xss ≠ [])
    (h : ∀ s ∈ xss, ∀ c ∈ s, c ≠ d) : splitOnChar d (joinSegs d xss) = xss := by
  induction xss with
  | nil => exact absurd rfl hne
  | cons s rest ih =>
    cases rest with
    | nil => exact splitOnChar_single d s (h s (List.mem_cons_self ..))
    | cons s2 rest2 =>
      have hj : joinSegs d (s :: s2 :: rest2) = s ++ d :: joinSegs d (s2 :: rest2) := rfl
      rw [hj, splitOnChar_delim d s (joinSegs d (s2 :: rest2))
        (h s (List.mem_cons_self ..)),
        ih (List.cons_ne_nil _ _) (fun x hx => h x (List.mem_cons_of_mem s hx))]

theorem splitOnChar_not_mem (d : Char) (l : List Char) :
    ∀ s ∈ splitOnChar d l, ∀ c ∈ s, c ≠ d := by
  induction l with
  | nil => intro s hs; simp [splitOnChar] at hs; simp [hs]
  | cons c cs ih =>
    intro s hs
    rw [splitOnChar] at hs
    by_cases h : c = d
    · rw [if_pos h] at hs
      rcases List.mem_cons.mp hs with rfl | hs'
      · simp
      · exact ih s hs'
    · rw [if_neg h] at hs
      rcases hr : splitOnChar d cs with _ | ⟨s1, rest⟩
      · exact absurd hr (splitOnChar_ne_nil d cs)
      · rw [hr] at hs
        rcases List.mem_cons.mp hs with rfl | hs'
        · intro x hx
          rcases List.mem_cons.mp hx with rfl | hx'
          · exact h
          · exact ih s1 (hr ▸ List.mem_cons_self ..) x hx'
        · exact ih s (hr ▸ List.mem_cons_of_mem s1 hs')

theorem splitOnChar_sub (d : Char) (l : List Char) :
    ∀ s ∈ splitOnChar d l, ∀ c ∈ s, c ∈ l := by
  induction l with
  | nil => intro s hs; simp [splitOnChar] at hs; simp [hs]
  | cons c cs ih =>
    intro s hs
    rw [splitOnChar] at hs
    by_cases h : c = d
    · rw [if_pos h] at hs
      rcases List.mem_cons.mp hs with rfl | hs'
      · simp
      · exact fun x hx => List.mem_cons_of_mem c (ih s hs' x hx)
    · rw [if_neg h] at hs
      rcases hr : splitOnChar d cs with _ | ⟨s1, rest⟩
      · exact absurd hr (splitOnChar_ne_nil d cs)
      · rw [hr] at hs
        rcases List.mem_cons.mp hs with rfl | hs'
        · intro x hx
          rcases List.mem_cons.mp hx with rfl | hx'
          · exact List.mem_cons_self ..
          · exact List.mem_cons_of_mem c (ih s1 (hr ▸ List.mem_cons_self ..) x hx')
        · exact fun x hx => List.mem_cons_of_mem c (ih s (hr ▸ List.mem_cons_of_mem s1 hs') x hx)

/-! ## Lemmas about dot-segment removal -/

theorem rds_ne_nil (l : List (List Char)) : ∀ acc, l ≠ [] → rds acc l ≠ [] := by
  induction l with
  | nil => intro acc h; exact absurd rfl h
  | cons s rest ih =>
    intro acc _
    cases rest with
    | nil =>
      rw [rds]
      by_cases h1 : s = ['.']
      · simp [h1]
      · rw [if_neg h1]
        by_cases h2 : s = ['.', '.']
        · simp [h2]
        · simp [h2]
    | cons s2 rest2 =>
      have hstep : rds acc (s :: s2 :: rest2) =
          if s = ['.'] then rds acc (s2 :: rest2)
          else if s = ['.', '.'] then rds acc.tail (s2 :: rest2)
          else rds (s :: acc) (s2 :: rest2) := rfl
      rw [hstep]
      by_cases h1 : s = ['.']
      · rw [if_pos h1]; exact ih acc (List.cons_ne_nil _ _)
      · rw [if_neg h1]
        by_cases h2 : s = ['.', '.']
        · rw [if_pos h2]; exact ih acc.tail (List.cons_ne_nil _ _)
        · rw [if_neg h2]; exact ih (s :: acc) (List.cons_ne_nil _ _)

theorem rds_noop (l : List (List Char)) (acc : List (List Char))
    (h : ∀ s ∈ l, s ≠ ['.'] ∧ s ≠ ['.', '.']) : rds acc l = acc.reverse ++ l := by
  induction l generalizing acc with
  | nil => simp [rds]
  | cons s rest ih =>
    obtain ⟨h1, h2⟩ := h s (List.mem_cons_self ..)
    cases rest with
    | nil => rw [rds, if_neg h1, if_neg h2]; simp
    | cons s2 rest2 =>
      have hstep : rds acc (s :: s2 :: rest2) =
          if s = ['.'] then rds acc (s2 :: rest2)
          else if s = ['.', '.'] then rds acc.tail (s2 :: rest2)
          else rds (s :: acc) (s2 :: rest2) := rfl
      rw [hstep, if_neg h1, if_neg h2,
        ih (s :: acc) (fun x hx => h x (List.mem_cons_of_mem s hx))]
      simp

theorem rds_mem (l : List (List Char)) :
    ∀ acc, ∀ s ∈ rds acc l, s ∈ acc ∨ s ∈ l ∨ s = [] := by
  induction l with
  | nil => intro acc s hs; rw [rds] at hs; exact Or.inl (List.mem_reverse.mp hs)
  | cons x rest ih =>
    intro acc s hs
    have tail_sub : ∀ y, y ∈ acc.tail → y ∈ acc := fun y hy =>
      List.mem_of_mem_tail hy
    cases rest with
    | nil =>
      rw [rds] at hs
      by_cases h1 : x = ['.']
      · rw [if_pos h1] at hs
        rcases List.mem_cons.mp (List.mem_reverse.mp hs) with h | h
        · exact Or.inr (Or.inr h)
        · exact Or.inl h
      · rw [if_neg h1] at hs
        by_cases h2 : x = ['.', '.']
        · rw [if_pos h2] at hs
          rcases List.mem_cons.mp (List.mem_reverse.mp hs) with h | h
          · exact Or.inr (Or.inr h)
          · exact Or.inl (tail_sub s h)
        · rw [if_neg h2] at hs
          rcases List.mem_cons.mp (List.mem_reverse.mp hs) with h | h
          · exact Or.inr (Or.inl (by simp [h]))
          · exact Or.inl h
    | cons s2 rest2 =>
      have hstep : rds acc (x :: s2 :: rest2) =
          if x = ['.'] then rds acc (s2 :: rest2)
          else if x = ['.', '.'] then rds acc.tail (s2 :: rest2)
          else rds (x :: acc) (s2 :: rest2) := rfl
      rw [hstep] at hs
      by_cases h1 : x = ['.']
      · rw [if_pos h1] at hs
        rcases ih acc s hs with h | h | h
        · exact Or.inl h
        · exact Or.inr (Or.inl (List.mem_cons_of_mem x h))
        · exact Or.inr (Or.inr h)
      · rw [if_neg h1] at hs
        by_cases h2 : x = ['.', '.']
        · rw [if_pos h2] at hs
          rcases ih acc.tail s hs with h | h | h
          · exact Or.inl (tail_sub s h)
          · exact Or.inr (Or.inl (List.mem_cons_of_mem x h))
          · exact Or.inr (Or.inr h)
        · rw [if_neg h2] at hs
          rcases ih (x :: acc) s hs with h | h | h
          · rcases List.mem_cons.mp h with rfl | h'
            · exact Or.inr (Or.inl (List.mem_cons_self ..))
            · exact Or.inl h'
          · exact Or.inr (Or.inl (List.mem_cons_of_mem x h))
          · exact Or.inr (Or.inr h)

theorem rds_no_dots (l : List (List Char)) :
    ∀ acc, (∀ s ∈ acc, s ≠ ['.'] ∧ s ≠ ['.', '.']) →
    ∀ s ∈ rds acc l, s ≠ ['.'] ∧ s ≠ ['.', '.'] := by
  induction l with
  | nil => intro acc hacc s hs; rw [rds] at hs; exact hacc s (List.mem_reverse.mp hs)
  | cons x rest ih =>
    intro acc hacc s hs
    have htail : ∀ s ∈ acc.tail, s ≠ ['.'] ∧ s ≠ ['.', '.'] := fun y hy =>
      hacc y (List.mem_of_mem_tail hy)
    have hnil : ([] : List Char) ≠ ['.'] ∧ ([] : List Char) ≠ ['.', '.'] := by simp
    cases rest with
    | nil =>
      rw [rds] at hs
      by_cases h1 : x = ['.']
      · rw [if_pos h1] at hs
        rcases List.mem_cons.mp (List.mem_reverse.mp hs) with h | h
        · rw [h]; exact hnil
        · exact hacc s h
      · rw [if_neg h1] at hs
        by_cases h2 : x = ['.', '.']
        · rw [if_pos h2] at hs
          rcases List.mem_cons.mp (List.mem_reverse.mp hs) with h | h
          · rw [h]; exact hnil
          · exact htail s h
        · rw [if_neg h2] at hs
          rcases List.mem_cons.mp (List.mem_reverse.mp hs) with h | h
          · rw [h]; exact ⟨h1, h2⟩
          · exact hacc s h
    | cons s2 rest2 =>
      have hstep : rds acc (x :: s2 :: rest2) =
          if x = ['.'] then rds acc (s2 :: rest2)
          else if x = ['.', '.'] then rds acc.tail (s2 :: rest2)
          else rds (x :: acc) (s2 :: rest2) := rfl
      rw [hstep] at hs
      by_cases h1 : x = ['.']
      · rw [if_pos h1] at hs; exact ih acc hacc s hs
      · rw [if_neg h1] at hs
        by_cases h2 : x = ['.', '.']
        · rw [if_pos h2] at hs; exact ih acc.tail htail s hs
        · rw [if_neg h2] at hs
          refine ih (x :: acc) ?_ s hs
          intro y hy
          rcases List.mem_cons.mp hy with rfl | hy'
          · exact ⟨h1, h2⟩
          · exact hacc y hy'

theorem removeDots_noop (l : List (List Char)) (h : ∀ s ∈ l, s ≠ ['.'] ∧ s ≠ ['.', '.']) :
    removeDots l = l := by
  rw [removeDots, rds_noop l [] h]; rfl

/-! ## Lemmas about the scheme scanner and small helpers -/

theorem schemeGo_app (xs : List Char) : ∀ acc rest, (∀ c ∈ xs, schemeChar c = true) →
    schemeGo acc (xs ++ ':' :: rest) = some (acc.reverse ++ xs, rest) := by
  induction xs with
  | nil => intro acc rest _; simp [schemeGo]
  | cons x xs ih =>
    intro acc rest h
    have hx : schemeChar x = true := h x (List.mem_cons_self ..)
    have hx' : ¬ x = ':' := by
      intro hc; rw [hc] at hx; exact absurd hx (by decide)
    rw [List.cons_append, schemeGo, if_neg hx', if_pos hx,
      ih (x :: acc) rest (fun c hc => h c (List.mem_cons_of_mem _ hc))]
    simp

theorem splitScheme_app (sch rest : List Char) (h : schemeOKb sch = true) :
    splitScheme (sch ++ ':' :: rest) = some (sch, rest) := by
  match sch with
  | [] => simp [schemeOKb] at h
  | c :: cs =>
    rw [schemeOKb] at h
    obtain ⟨halpha, hall⟩ := (Bool.and_eq_true ..).mp h
    rw [List.cons_append, splitScheme, if_pos halpha,
      schemeGo_app cs [c] rest
        (fun x hx => List.all_eq_true.mp hall x (List.mem_cons_of_mem _ hx))]
    simp

theorem schemeGo_pre (l : List Char) : ∀ acc s r, schemeGo acc l = some (s, r) →
    ∃ t, s = acc.reverse ++ t ∧ (∀ c ∈ t, schemeChar c = true) ∧ l = t ++ ':' :: r := by
  induction l with
  | nil => intro acc s r h; simp [schemeGo] at h
  | cons c cs ih =>
    intro acc s r h
    by_cases hc : c = ':'
    · rw [schemeGo, if_pos hc] at h
      have h1 : acc.reverse = s := congrArg Prod.fst (Option.some.inj h)
      have h2 : cs = r := congrArg Prod.snd (Option.some.inj h)
      exact ⟨[], by simp [h1], by simp, by simp [hc, h2]⟩
    · by_cases hsc : schemeChar c = true
      · rw [schemeGo, if_neg hc, if_pos hsc] at h
        obtain ⟨t, ht1, ht2, ht3⟩ := ih (c :: acc) s r h
        refine ⟨c :: t, ?_, ?_, ?_⟩
        · rw [ht1]; simp
        · intro x hx
          rcases List.mem_cons.mp hx with rfl | hx'
          · exact hsc
          · exact ht2 x hx'
        · rw [List.cons_append, ht3]
      · rw [schemeGo, if_neg hc, if_neg hsc] at h
        exact absurd h (by simp)

theorem splitScheme_chars (l sch rest : List Char) (h : splitScheme l = some (sch, rest)) :
    schemeOKb sch = true ∧ l = sch ++ ':' :: rest := by
  match l with
  | [] => simp [splitScheme] at h
  | c :: cs =>
    rw [splitScheme] at h
    by_cases ha : c.isAlpha = true
    · rw [if_pos ha] at h
      obtain ⟨t, ht1, ht2, ht3⟩ := schemeGo_pre cs [c] sch rest h
      have hsch : sch = c :: t := by simpa using ht1
      refine ⟨?_, ?_⟩
      · rw [hsch, schemeOKb, Bool.and_eq_true]
        refine ⟨ha, List.all_eq_true.mpr ?_⟩
        intro x hx
        rcases List.mem_cons.mp hx with rfl | hx'
        · simp [schemeChar, ha]
        · exact ht2 x hx'
      · rw [hsch, List.cons_append, ht3]
    · rw [if_neg ha] at h
      exact absurd h (by simp)

theorem afterLastAt_noat (l : List Char) (h : ∀ c ∈ l, c ≠ '@') : afterLastAt l = l := by
  unfold afterLastAt
  rw [List.takeWhile_eq_self_iff.mpr ?_, List.reverse_reverse]
  intro x hx
  simpa using h x (List.mem_reverse.mp hx)

theorem slashFix_no_bs (c : Char) : slashFix c ≠ '\\' := by
  unfold slashFix
  by_cases h : c = '\\'
  · rw [if_pos h]; decide
  · rw [if_neg h]; exact h

theorem map_slashFix_id (l : List Char) (h : ∀ c ∈ l, c ≠ '\\') : l.map slashFix = l := by
  induction l with
  | nil => rfl
  | cons c cs ih =>
    rw [List.map_cons, ih (fun x hx => h x (List.mem_cons_of_mem c hx))]
    congr 1
    unfold slashFix
    rw [if_neg (h c (List.mem_cons_self ..))]

theorem normZeros_ne_nil (l : List Char) : normZeros l ≠ [] := by
  unfold normZeros
  rcases hd : l.dropWhile (fun c => c == '0') with _ | ⟨c, cs⟩
  · simp
  · simp

theorem normZeros_digits (l : List Char) (h : l.all Char.isDigit = true) :
    (normZeros l).all Char.isDigit = true := by
  unfold normZeros
  rcases hd : l.dropWhile (fun c => c == '0') with _ | ⟨c, cs⟩
  · decide
  · refine List.all_eq_true.mpr ?_
    intro x hx
    have hxl : x ∈ l := (List.dropWhile_sublist _).mem (by rw [hd]; exact hx)
    exact List.all_eq_true.mp h x hxl

theorem dropWhile_head_false (p : Char → Bool) (l : List Char) :
    ∀ c cs, l.dropWhile p = c :: cs → p c = false := by
  intro c cs h
  have := List.head?_dropWhile_not p l
  rw [h] at this
  simpa using this

theorem normZeros_idem (l : List Char) : normZeros (normZeros l) = normZeros l := by
  rcases hd : l.dropWhile (fun c => c == '0') with _ | ⟨c, cs⟩
  · have h0 : normZeros l = ['0'] := by unfold normZeros; rw [hd]
    rw [h0]; decide
  · have h0 : normZeros l = c :: cs := by unfold normZeros; rw [hd]
    have hc : (c == '0') = false := dropWhile_head_false _ l c cs hd
    rw [h0]
    unfold normZeros
    rw [List.dropWhile_cons, if_neg (by simp [hc])]

/-! ## Component facts and the authority round trip -/

theorem badHost_ne (c : Char) (h : badHostChar c = false) :
    c ≠ '/' ∧ c ≠ '?' ∧ c ≠ '#' ∧ c ≠ '@' ∧ c ≠ ':' ∧ c ≠ '\\' := by
  refine ⟨?_, ?_, ?_, ?_, ?_, ?_⟩ <;> (intro h'; subst h'; exact absurd h (by decide))

theorem digit_ne (c : Char) (h : c.isDigit = true) :
    c ≠ '/' ∧ c ≠ '?' ∧ c ≠ '#' ∧ c ≠ '@' ∧ c ≠ '\\' := by
  refine ⟨?_, ?_, ?_, ?_, ?_⟩ <;> (intro h'; subst h'; exact absurd h (by decide))

theorem hostOKb_facts (special : Bool) (h : List Char) (hh : hostOKb special h = true) :
    (∀ c ∈ h, badHostChar c = false) ∧ (special && h.isEmpty) = false := by
  rw [hostOKb, Bool.and_eq_true] at hh
  obtain ⟨h1, h2⟩ := hh
  refine ⟨?_, ?_⟩
  · rw [Bool.not_eq_true'] at h1
    intro c hc
    have := List.any_eq_false.mp h1 c hc
    simpa using this
  · cases special with
    | false => rfl
    | true =>
      cases hie : h.isEmpty with
      | false => rfl
      | true => rw [hie] at h2; exact absurd h2 (by decide)

theorem portOKb_facts (ds : List Char) (hp : portOKb ds = true) :
    ds ≠ [] ∧ ds.all Char.isDigit = true ∧ normZeros ds = ds ∧ digitsToNat ds ≤ 65535 := by
  rw [portOKb, Bool.and_eq_true, Bool.and_eq_true, Bool.and_eq_true] at hp
  obtain ⟨⟨⟨h1, h2⟩, h3⟩, h4⟩ := hp
  refine ⟨?_, h2, ?_, ?_⟩
  · rw [Bool.not_eq_true'] at h1
    intro hc
    rw [hc] at h1
    exact absurd h1 (by decide)
  · exact (beq_iff_eq .. |>.mp h3).symm
  · exact of_decide_eq_true h4

theorem parseHostPort_rt (special : Bool) (host : List Char) (port : Option (List Char))
    (hh : hostOKb special host = true) (hp : optOKb portOKb port = true) :
    parseHostPort special (host ++ serializePort port) = some (host, port) := by
  obtain ⟨hbad, hse⟩ := hostOKb_facts special host hh
  have h1 : host.any badHostChar = false := by
    rw [List.any_eq_false]
    intro c hc
    simp [hbad c hc]
  have hhostcol : ∀ c ∈ host, (fun c => c == ':') c = false := by
    intro c hc
    simpa using (badHost_ne c (hbad c hc)).2.2.2.2.1
  cases port with
  | none =>
    have hno_at : ∀ c ∈ host ++ serializePort (none : Option (List Char)), c ≠ '@' := by
      intro c hc
      rcases List.mem_append.mp hc with hc | hc
      · exact (badHost_ne c (hbad c hc)).2.2.2.1
      · simp [serializePort] at hc
    have hat := afterLastAt_noat _ hno_at
    have hsp : splitFirst (fun c => c == ':') (host ++ serializePort (none : Option (List Char))) =
        (host, none) := by
      simpa [serializePort] using splitFirst_none (fun c => c == ':') host hhostcol
    simp only [parseHostPort, hat, hsp, h1, hse, Bool.false_eq_true, if_false]
  | some ds =>
    have hpds : portOKb ds = true := hp
    obtain ⟨hne, hdig, hnz, hle⟩ := portOKb_facts ds hpds
    have hno_at : ∀ c ∈ host ++ serializePort (some ds), c ≠ '@' := by
      intro c hc
      rcases List.mem_append.mp hc with hc | hc
      · exact (badHost_ne c (hbad c hc)).2.2.2.1
      · rcases List.mem_cons.mp (by simpa [serializePort] using hc) with rfl | hcds
        · decide
        · exact (digit_ne c (List.all_eq_true.mp hdig c hcds)).2.2.2.1
    have hat := afterLastAt_noat _ hno_at
    have hsp : splitFirst (fun c => c == ':') (host ++ serializePort (some ds)) =
        (host, some ds) := by
      simpa [serializePort] using splitFirst_app (fun c => c == ':') host ':' ds hhostcol (by decide)
    have hde : ds.isEmpty = false := by
      cases ds with
      | nil => exact absurd rfl hne
      | cons c cs => exact List.isEmpty_cons
    simp only [parseHostPort, hat, hsp, h1, hse, Bool.false_eq_true, if_false, hde, hdig,
      if_true, hnz, hle, if_pos]

theorem segOKb_facts (special : Bool) (s : List Char) (h : segOKb special s = true) :
    (∀ c ∈ s, c ≠ '/' ∧ c ≠ '?' ∧ c ≠ '#') ∧ s ≠ ['.'] ∧ s ≠ ['.', '.'] := by
  rw [segOKb, Bool.and_eq_true, Bool.and_eq_true, Bool.and_eq_true, Bool.and_eq_true,
    Bool.and_eq_true] at h
  obtain ⟨⟨⟨⟨⟨h1, h2⟩, h3⟩, h4⟩, h5⟩, _⟩ := h
  rw [Bool.not_eq_true'] at h1 h2 h3 h4 h5
  refine ⟨?_, ?_, ?_⟩
  · intro c hc
    refine ⟨?_, ?_, ?_⟩ <;> intro h' <;> subst h'
    · rw [show s.contains '/' = List.elem '/' s from rfl, List.elem_iff.mpr hc] at h1
      exact absurd h1 (by decide)
    · rw [show s.contains '?' = List.elem '?' s from rfl, List.elem_iff.mpr hc] at h2
      exact absurd h2 (by decide)
    · rw [show s.contains '#' = List.elem '#' s from rfl, List.elem_iff.mpr hc] at h3
      exact absurd h3 (by decide)
  · intro h'
    rw [h'] at h4
    exact absurd h4 (by decide)
  · intro h'
    rw [h'] at h5
    exact absurd h5 (by decide)

theorem joinSegs_chars (d : Char) (xss : List (List Char)) :
    ∀ c ∈ joinSegs d xss, c = d ∨ ∃ s ∈ xss, c ∈ s := by
  induction xss with
  | nil => simp [joinSegs]
  | cons s rest ih =>
    cases rest with
    | nil => exact fun c hc => Or.inr ⟨s, List.mem_cons_self .., hc⟩
    | cons s2 r2 =>
      have hj : joinSegs d (s :: s2 :: r2) = s ++ d :: joinSegs d (s2 :: r2) := rfl
      intro c hc
      rw [hj] at hc
      rcases List.mem_append.mp hc with h | h
      · exact Or.inr ⟨s, List.mem_cons_self .., h⟩
      · rcases List.mem_cons.mp h with rfl | h2
        · exact Or.inl rfl
        · rcases ih c h2 with h3 | ⟨s', hs', hc'⟩
          · exact Or.inl h3
          · exact Or.inr ⟨s', List.mem_cons_of_mem _ hs', hc'⟩

theorem splitFirst_qf (d : Char) (X : List Char) (o : Option (List Char))
    (hX : ∀ c ∈ X, c ≠ d) :
    splitFirst (fun c => c == d) (X ++ serializeQF d o) = (X, o) := by
  cases o with
  | none =>
    simpa [serializeQF] using
      splitFirst_none (fun c => c == d) X (by intro c hc; simpa using hX c hc)
  | some x =>
    simpa [serializeQF] using
      splitFirst_app (fun c => c == d) X d x (by intro c hc; simpa using hX c hc) (by simp)

theorem splitFirst_path (auth : List Char) (segs : List (List Char))
    (hauth : ∀ c ∈ auth, c ≠ '/') :
    splitFirst (fun c => c == '/') (auth ++ serializePath segs) =
      (auth, match segs with | [] => none | s :: rest => some (joinSegs '/' (s :: rest))) := by
  cases segs with
  | nil =>
    simpa [serializePath] using
      splitFirst_none (fun c => c == '/') auth (by intro c hc; simpa using hauth c hc)
  | cons s rest =>
    simpa [serializePath] using
      splitFirst_app (fun c => c == '/') auth '/' (joinSegs '/' (s :: rest))
        (by intro c hc; simpa using hauth c hc) (by simp)

theorem parseHier_rt (sch : List Char) (special : Bool) (host : List Char)
    (port : Option (List Char)) (segs : List (List Char)) (q fr : Option (List Char))
    (hh : hostOKb special host = true) (hp : optOKb portOKb port = true)
    (hsegs : ∀ s ∈ segs, segOKb special s = true)
    (hsne : special = true → segs ≠ [])
    (hq : optOKb (queryOKb special) q = true) :
    parseHier sch special
      (host ++ serializePort port ++ serializePath segs ++ serializeQF '?' q ++
        serializeQF '#' fr) =
      some ⟨sch, .hier host port segs, q, fr⟩ := by
  obtain ⟨hbad, _⟩ := hostOKb_facts special host hh
  have hport_chars : ∀ c ∈ serializePort port, c = ':' ∨ c.isDigit = true := by
    intro c hc
    cases port with
    | none => simp [serializePort] at hc
    | some ds =>
      obtain ⟨_, hdig, _, _⟩ := portOKb_facts ds hp
      rcases List.mem_cons.mp (by simpa [serializePort] using hc) with rfl | hcds
      · exact Or.inl rfl
      · exact Or.inr (List.all_eq_true.mp hdig c hcds)
  have hpath_chars : ∀ c ∈ serializePath segs, c = '/' ∨ ∃ s ∈ segs, c ∈ s := by
    intro c hc
    cases segs with
    | nil => simp [serializePath] at hc
    | cons s rest =>
      rcases List.mem_cons.mp (by simpa [serializePath] using hc) with rfl | hcj
      · exact Or.inl rfl
      · rcases joinSegs_chars '/' (s :: rest) c hcj with h | h
        · exact Or.inl h
        · exact Or.inr h
  have hauth_nohash : ∀ c ∈ host ++ serializePort port, c ≠ '#' ∧ c ≠ '?' ∧ c ≠ '/' := by
    intro c hc
    rcases List.mem_append.mp hc with hc | hc
    · obtain ⟨n1, n2, n3, _, _, _⟩ := badHost_ne c (hbad c hc)
      exact ⟨n3, n2, n1⟩
    · rcases hport_chars c hc with rfl | hd
      · refine ⟨by decide, by decide, by decide⟩
      · obtain ⟨d1, d2, d3, _⟩ := digit_ne c hd
        exact ⟨d3, d2, d1⟩
  have hbody_nohash : ∀ c ∈ host ++ serializePort port ++ serializePath segs,
      c ≠ '#' ∧ c ≠ '?' := by
    intro c hc
    rcases List.mem_append.mp hc with hc | hc
    · exact ⟨(hauth_nohash c hc).1, (hauth_nohash c hc).2.1⟩
    · rcases hpath_chars c hc with rfl | ⟨s, hs, hcs⟩
      · exact ⟨by decide, by decide⟩
      · obtain ⟨_, n2, n3⟩ := (segOKb_facts special s (hsegs s hs)).1 c hcs
        exact ⟨n3, n2⟩
  have hbq_nohash : ∀ c ∈ host ++ serializePort port ++ serializePath segs ++
      serializeQF '?' q, c ≠ '#' := by
    intro c hc
    rcases List.mem_append.mp hc with hc | hc
    · exact (hbody_nohash c hc).1
    · cases q with
      | none => simp [serializeQF] at hc
      | some qq =>
        have hqq : queryOKb special qq = true := hq
        rw [queryOKb, Bool.and_eq_true] at hqq
        rcases List.mem_cons.mp (by simpa [serializeQF] using hc) with rfl | hcq
        · decide
        · intro h'
          subst h'
          have := hqq.1
          rw [Bool.not_eq_true',
            show qq.contains '#' = List.elem '#' qq from rfl, List.elem_iff.mpr hcq] at this
          exact absurd this (by decide)
  have hsf1 := splitFirst_qf '#' _ fr hbq_nohash
  have hsf2 := splitFirst_qf '?' _ q (fun c hc => (hbody_nohash c hc).2)
  have hsf3 := splitFirst_path (host ++ serializePort port) segs
    (fun c hc => (hauth_nohash c hc).2.2)
  cases segs with
  | nil =>
    have hspec : special = false := by
      cases hsp : special with
      | false => rfl
      | true => exact absurd rfl (hsne hsp)
    subst hspec
    simp only [parseHier, hsf1, hsf2, hsf3, Bool.false_eq_true, if_false,
      parseHostPort_rt false host port hh hp]
  | cons s rest =>
    have hjs : splitOnChar '/' (joinSegs '/' (s :: rest)) = s :: rest :=
      joinSegs_split '/' (s :: rest) (List.cons_ne_nil _ _)
        (fun x hx c hc => ((segOKb_facts special x (hsegs x hx)).1 c hc).1)
    have hrd : removeDots (s :: rest) = s :: rest :=
      removeDots_noop (s :: rest) (fun x hx => (segOKb_facts special x (hsegs x hx)).2)
    simp only [parseHier, hsf1, hsf2, hsf3, parseHostPort_rt special host port hh hp, hjs, hrd]

/-! ## Facts about `//` prefixes and backslash freedom -/

theorem startsDslash_cons2 (c1 c2 : Char) (t : List Char) :
    startsDslash (c1 :: c2 :: t) = (decide (c1 = '/') && decide (c2 = '/')) := by
  simp [startsDslash, List.take]

theorem startsDslash_true (l : List Char) (h : startsDslash l = true) :
    ∃ t, l = '/' :: '/' :: t := by
  rcases l with _ | ⟨c1, _ | ⟨c2, t⟩⟩
  · exact absurd h (by simp [startsDslash])
  · exact absurd h (by simp [startsDslash, List.take])
  · rw [startsDslash_cons2] at h
    obtain ⟨h1, h2⟩ := (Bool.and_eq_true ..).mp h
    rw [of_decide_eq_true h1, of_decide_eq_true h2]
    exact ⟨t, rfl⟩

theorem startsDslash_pre (a t : List Char) (h : startsDslash (a ++ t) = false) :
    startsDslash a = false := by
  cases hsd : startsDslash a with
  | false => rfl
  | true =>
    obtain ⟨r, rfl⟩ := startsDslash_true a hsd
    rw [show ('/' :: '/' :: r) ++ t = '/' :: '/' :: (r ++ t) from rfl,
      startsDslash_cons2] at h
    exact absurd h (by simp)

theorem startsDslash_opq (op : List Char) (q fr : Option (List Char))
    (hop : startsDslash op = false) :
    startsDslash (op ++ serializeQF '?' q ++ serializeQF '#' fr) = false := by
  rcases op with _ | ⟨c1, _ | ⟨c2, t⟩⟩
  · cases q <;> cases fr <;> simp [serializeQF, startsDslash, List.take]
  · cases q <;> cases fr <;> simp [serializeQF, startsDslash, List.take]
  · rw [show (c1 :: c2 :: t) ++ serializeQF '?' q ++ serializeQF '#' fr =
      c1 :: c2 :: (t ++ serializeQF '?' q ++ serializeQF '#' fr) from rfl, startsDslash_cons2]
    rw [startsDslash_cons2] at hop
    exact hop

theorem segOKb_bs (s : List Char) (h : segOKb true s = true) : ∀ c ∈ s, c ≠ '\\' := by
  rw [segOKb, Bool.and_eq_true] at h
  intro c hc h'
  subst h'
  have h6 := h.2
  simp only [Bool.not_true, Bool.false_or, Bool.not_eq_true'] at h6
  rw [show s.contains '\\' = List.elem '\\' s from rfl, List.elem_iff.mpr hc] at h6
  exact absurd h6 (by decide)

theorem queryOKb_bs (s : List Char) (h : queryOKb true s = true) : ∀ c ∈ s, c ≠ '\\' := by
  rw [queryOKb, Bool.and_eq_true] at h
  intro c hc h'
  subst h'
  have h6 := h.2
  simp only [Bool.not_true, Bool.false_or, Bool.not_eq_true'] at h6
  rw [show s.contains '\\' = List.elem '\\' s from rfl, List.elem_iff.mpr hc] at h6
  exact absurd h6 (by decide)

theorem fragOKb_bs (s : List Char) (h : fragOKb true s = true) : ∀ c ∈ s, c ≠ '\\' := by
  rw [fragOKb] at h
  intro c hc h'
  subst h'
  simp only [Bool.not_true, Bool.false_or, Bool.not_eq_true'] at h
  rw [show s.contains '\\' = List.elem '\\' s from rfl, List.elem_iff.mpr hc] at h
  exact absurd h (by decide)

theorem dropWhile_two_slash (l : List Char) (h : ∀ c, l.head? = some c → c ≠ '/') :
    ('/' :: '/' :: l).dropWhile (fun c => c == '/') = l := by
  rw [List.dropWhile_cons, if_pos (by decide), List.dropWhile_cons, if_pos (by decide)]
  cases l with
  | nil => rfl
  | cons c cs =>
    rw [List.dropWhile_cons, if_neg ?_]
    simpa using h c rfl

theorem contains_false_ne (s : List Char) (a : Char) (h : (!(s.contains a)) = true) :
    ∀ c ∈ s, c ≠ a := by
  rw [Bool.not_eq_true'] at h
  intro c hc h'
  subst h'
  rw [show s.contains c = List.elem c s from rfl, List.elem_iff.mpr hc] at h
  exact absurd h (by simp)

theorem queryOKb_hash (sp : Bool) (s : List Char) (h : queryOKb sp s = true) :
    ∀ c ∈ s, c ≠ '#' := by
  rw [queryOKb, Bool.and_eq_true] at h
  exact contains_false_ne s '#' h.1

/-! ## The serializer is a right inverse of the parser on valid records -/

theorem parseAbs_serialize (u : URLRecord) (h : validURL u = true) :
    parseAbs (serializeURL u) = some u := by
  rw [validURL, Bool.and_eq_true] at h
  obtain ⟨hsch, hkqf⟩ := h
  rcases u with ⟨sch, kind, q, fr⟩
  simp only at hsch hkqf ⊢
  rw [validKindQF.eq_def, Bool.and_eq_true, Bool.and_eq_true] at hkqf
  obtain ⟨⟨hkind, hq⟩, hfr⟩ := hkqf
  cases kind with
  | hier host port segs =>
    rw [Bool.and_eq_true, Bool.and_eq_true, Bool.and_eq_true] at hkind
    obtain ⟨⟨⟨hh, hp⟩, hsegsall⟩, hsne'⟩ := hkind
    have hsegs : ∀ s ∈ segs, segOKb (specialScheme sch) s = true :=
      List.all_eq_true.mp hsegsall
    have hsne : specialScheme sch = true → segs ≠ [] := by
      intro hsp hc
      subst hc
      rw [hsp] at hsne'
      exact absurd hsne' (by decide)
    have hser : serializeURL ⟨sch, .hier host port segs, q, fr⟩ =
        sch ++ ':' :: '/' :: '/' ::
          (host ++ serializePort port ++ serializePath segs ++ serializeQF '?' q ++
            serializeQF '#' fr) := by
      simp only [serializeURL, List.cons_append]
    rw [hser]
    have hss := splitScheme_app sch
      ('/' :: '/' ::
        (host ++ serializePort port ++ serializePath segs ++ serializeQF '?' q ++
          serializeQF '#' fr)) hsch
    cases hsp : specialScheme sch with
    | true =>
      rw [hsp] at hh hsegs hq hfr
      obtain ⟨hbad, hse⟩ := hostOKb_facts true host hh
      have hhost_ne : host ≠ [] := by
        intro hc
        subst hc
        exact absurd hse (by decide)
      have hport_bs : ∀ c ∈ serializePort port, c ≠ '\\' := by
        intro c hc
        cases port with
        | none => simp [serializePort] at hc
        | some ds =>
          obtain ⟨_, hdig, _, _⟩ := portOKb_facts ds hp
          rcases List.mem_cons.mp (by simpa [serializePort] using hc) with rfl | hcds
          · decide
          · exact (digit_ne c (List.all_eq_true.mp hdig c hcds)).2.2.2.2
      have hpath_bs : ∀ c ∈ serializePath segs, c ≠ '\\' := by
        intro c hc
        cases segs with
        | nil => simp [serializePath] at hc
        | cons s rest =>
          rcases List.mem_cons.mp (by simpa [serializePath] using hc) with rfl | hcj
          · decide
          · rcases joinSegs_chars '/' (s :: rest) c hcj with rfl | ⟨s', hs', hcs⟩
            · decide
            · exact segOKb_bs s' (hsegs s' hs') c hcs
      have hq_bs : ∀ c ∈ serializeQF '?' q, c ≠ '\\' := by
        intro c hc
        cases q with
        | none => simp [serializeQF] at hc
        | some qq =>
          rcases List.mem_cons.mp (by simpa [serializeQF] using hc) with rfl | hcq
          · decide
          · exact queryOKb_bs qq hq c hcq
      have hf_bs : ∀ c ∈ serializeQF '#' fr, c ≠ '\\' := by
        intro c hc
        cases fr with
        | none => simp [serializeQF] at hc
        | some ff =>
          rcases List.mem_cons.mp (by simpa [serializeQF] using hc) with rfl | hcf
          · decide
          · exact fragOKb_bs ff hfr c hcf
      have hnb : ∀ c ∈ ('/' :: '/' ::
          (host ++ serializePort port ++ serializePath segs ++ serializeQF '?' q ++
            serializeQF '#' fr) : List Char), c ≠ '\\' := by
        intro c hc
        rcases List.mem_cons.mp hc with rfl | hc
        · decide
        rcases List.mem_cons.mp hc with rfl | hc
        · decide
        rcases List.mem_append.mp hc with hc | hc
        case inr => exact hf_bs c hc
        rcases List.mem_append.mp hc with hc | hc
        case inr => exact hq_bs c hc
        rcases List.mem_append.mp hc with hc | hc
        case inr => exact hpath_bs c hc
        rcases List.mem_append.mp hc with hc | hc
        case inr => exact hport_bs c hc
        exact (badHost_ne c (hbad c hc)).2.2.2.2.2
      have hhead : ∀ c, (host ++ serializePort port ++ serializePath segs ++
          serializeQF '?' q ++ serializeQF '#' fr).head? = some c → c ≠ '/' := by
        match host, hhost_ne with
        | h0 :: hs, _ =>
          intro c hc
          simp only [List.cons_append, List.head?_cons, Option.some.injEq] at hc
          rw [← hc]
          exact (badHost_ne h0 (hbad h0 (List.mem_cons_self ..))).1
      simp only [parseAbs, hss, hsp, if_true, map_slashFix_id _ hnb, dropWhile_two_slash _ hhead]
      exact parseHier_rt sch true host port segs q fr hh hp hsegs (fun _ => hsne hsp) hq
    | false =>
      rw [hsp] at hh hsegs hq hfr
      have hds : startsDslash ('/' :: '/' ::
          (host ++ serializePort port ++ serializePath segs ++ serializeQF '?' q ++
            serializeQF '#' fr)) = true := by
        rw [startsDslash_cons2]; simp
      simp only [parseAbs, hss, hsp, Bool.false_eq_true, if_false, hds, if_true, List.drop_succ_cons,
        List.drop_zero]
      exact parseHier_rt sch false host port segs q fr hh hp hsegs (by simp) hq
  | opq op =>
    rw [Bool.and_eq_true, Bool.and_eq_true, Bool.and_eq_true] at hkind
    obtain ⟨⟨⟨hns, hnq⟩, hnh⟩, hnd⟩ := hkind
    have hspf : specialScheme sch = false := by rwa [Bool.not_eq_true'] at hns
    have hser : serializeURL ⟨sch, .opq op, q, fr⟩ =
        sch ++ ':' :: (op ++ serializeQF '?' q ++ serializeQF '#' fr) := by
      simp only [serializeURL]
    rw [hser]
    have hss := splitScheme_app sch (op ++ serializeQF '?' q ++ serializeQF '#' fr) hsch
    have hsd : startsDslash (op ++ serializeQF '?' q ++ serializeQF '#' fr) = false :=
      startsDslash_opq op q fr (by rwa [Bool.not_eq_true'] at hnd)
    have hop_nohash : ∀ c ∈ op, c ≠ '#' := contains_false_ne op '#' hnh
    have hop_noq : ∀ c ∈ op, c ≠ '?' := contains_false_ne op '?' hnq
    have hbq : ∀ c ∈ op ++ serializeQF '?' q, c ≠ '#' := by
      intro c hc
      rcases List.mem_append.mp hc with hc | hc
      · exact hop_nohash c hc
      · cases q with
        | none => simp [serializeQF] at hc
        | some qq =>
          rcases List.mem_cons.mp (by simpa [serializeQF] using hc) with rfl | hcq
          · decide
          · exact queryOKb_hash (specialScheme sch) qq (hspf ▸ hq) c hcq
    simp only [parseAbs, hss, hspf, Bool.false_eq_true, if_false, hsd, parseOpq,
      splitFirst_qf '#' _ fr hbq, splitFirst_qf '?' _ q hop_noq]

/-! ## Everything the parser produces is valid -/

theorem splitFirst_fst_sub (p : Char → Bool) (l : List Char) :
    ∀ c ∈ (splitFirst p l).1, c ∈ l := by
  rcases hsf : splitFirst p l with ⟨a, r⟩
  cases r with
  | none =>
    intro c hc
    rw [splitFirst_none_eq p l a hsf] at hc
    exact hc
  | some rr =>
    obtain ⟨d, _, hdec⟩ := splitFirst_decomp p l a rr hsf
    intro c hc
    rw [hdec]
    exact List.mem_append.mpr (Or.inl hc)

theorem splitFirst_snd_sub (p : Char → Bool) (l a r : List Char)
    (h : splitFirst p l = (a, some r)) : ∀ c ∈ r, c ∈ l := by
  obtain ⟨d, _, hdec⟩ := splitFirst_decomp p l a r h
  intro c hc
  rw [hdec]
  exact List.mem_append.mpr (Or.inr (List.mem_cons_of_mem d hc))

theorem contains_eq_false (s : List Char) (a : Char) (h : ∀ c ∈ s, c ≠ a) :
    s.contains a = false := by
  cases hc : s.contains a with
  | false => rfl
  | true =>
    have : a ∈ s := List.elem_iff.mp (show List.elem a s = true from hc)
    exact absurd rfl (h a this)

theorem beq_false_ne (c a : Char) (h : (c == a) = false) : c ≠ a := by
  intro h'
  subst h'
  rw [beq_self_eq_true] at h
  exact absurd h (by simp)

theorem segOKb_nil (special : Bool) : segOKb special [] = true := by
  cases special <;> decide

theorem parseHostPort_valid (special : Bool) (auth : List Char) (host : List Char)
    (port : Option (List Char)) (h : parseHostPort special auth = some (host, port)) :
    hostOKb special host = true ∧ optOKb portOKb port = true ∧
      host = (splitFirst (fun c => c == ':') (afterLastAt auth)).1 := by
  simp only [parseHostPort] at h
  by_cases h1 : ((splitFirst (fun c => c == ':') (afterLastAt auth)).1.any badHostChar) = true
  · rw [if_pos h1] at h
    exact absurd h (by simp)
  · rw [if_neg h1] at h
    rw [Bool.not_eq_true] at h1
    by_cases h2 : (special && (splitFirst (fun c => c == ':') (afterLastAt auth)).1.isEmpty) = true
    · rw [if_pos h2] at h
      exact absurd h (by simp)
    · rw [if_neg h2] at h
      rw [Bool.not_eq_true] at h2
      have hhost : hostOKb special (splitFirst (fun c => c == ':') (afterLastAt auth)).1 = true := by
        rw [hostOKb, Bool.and_eq_true]
        refine ⟨by rw [h1]; rfl, ?_⟩
        cases hsp : special with
        | false => rfl
        | true =>
          rw [hsp] at h2
          cases hie : (splitFirst (fun c => c == ':') (afterLastAt auth)).1.isEmpty with
          | false => rfl
          | true => rw [hie] at h2; exact absurd h2 (by decide)
      rcases hsnd : (splitFirst (fun c => c == ':') (afterLastAt auth)).2 with _ | ds
      · simp only [hsnd] at h
        have hh := Option.some.inj h
        have hhost' := congrArg Prod.fst hh
        have hport' := congrArg Prod.snd hh
        simp only at hhost' hport'
        rw [← hhost', ← hport']
        exact ⟨hhost, by rw [optOKb], rfl⟩
      · simp only [hsnd] at h
        by_cases h3 : ds.isEmpty = true
        · rw [if_pos h3] at h
          have hh := Option.some.inj h
          have hhost' := congrArg Prod.fst hh
          have hport' := congrArg Prod.snd hh
          simp only at hhost' hport'
          rw [← hhost', ← hport']
          exact ⟨hhost, by rw [optOKb], rfl⟩
        · rw [if_neg h3] at h
          by_cases h4 : ds.all Char.isDigit = true
          · rw [if_pos h4] at h
            by_cases h5 : digitsToNat (normZeros ds) ≤ 65535
            · rw [if_pos h5] at h
              have hh := Option.some.inj h
              have hhost' := congrArg Prod.fst hh
              have hport' := congrArg Prod.snd hh
              simp only at hhost' hport'
              rw [← hhost', ← hport']
              refine ⟨hhost, ?_, rfl⟩
              show portOKb (normZeros ds) = true
              rw [portOKb, Bool.and_eq_true, Bool.and_eq_true, Bool.and_eq_true]
              refine ⟨⟨⟨?_, normZeros_digits ds h4⟩, ?_⟩, ?_⟩
              · rw [Bool.not_eq_true']
                cases hne : (normZeros ds).isEmpty with
                | false => rfl
                | true => exact absurd (List.isEmpty_iff.mp hne) (normZeros_ne_nil ds)
              · rw [normZeros_idem]
                exact beq_self_eq_true _
              · exact decide_eq_true h5
            · rw [if_neg h5] at h
              exact absurd h (by simp)
          · rw [if_neg h4] at h
            exact absurd h (by simp)

theorem segOKb_build (special : Bool) (s : List Char)
    (h1 : ∀ c ∈ s, c ≠ '/') (h2 : ∀ c ∈ s, c ≠ '?') (h3 : ∀ c ∈ s, c ≠ '#')
    (h4 : s ≠ ['.']) (h5 : s ≠ ['.', '.'])
    (h6 : special = true → ∀ c ∈ s, c ≠ '\\') : segOKb special s = true := by
  have c1 := contains_eq_false s '/' h1
  have c2 := contains_eq_false s '?' h2
  have c3 := contains_eq_false s '#' h3
  have d1 : (s == ['.']) = false := beq_eq_false_iff_ne.mpr h4
  have d2 : (s == ['.', '.']) = false := beq_eq_false_iff_ne.mpr h5
  rw [segOKb, c1, c2, c3, d1, d2]
  cases special with
  | false => rfl
  | true => rw [contains_eq_false s '\\' (h6 rfl)]; rfl

theorem queryOKb_build (special : Bool) (s : List Char) (h1 : ∀ c ∈ s, c ≠ '#')
    (h2 : special = true → ∀ c ∈ s, c ≠ '\\') : queryOKb special s = true := by
  have c1 := contains_eq_false s '#' h1
  rw [queryOKb, c1]
  cases special with
  | false => rfl
  | true => rw [contains_eq_false s '\\' (h2 rfl)]; rfl

theorem fragOKb_build (special : Bool) (s : List Char)
    (h2 : special = true → ∀ c ∈ s, c ≠ '\\') : fragOKb special s = true := by
  cases special with
  | false => rfl
  | true => rw [fragOKb, contains_eq_false s '\\' (h2 rfl)]; decide

theorem parseHier_valid (sch : List Char) (special : Bool) (r : List Char) (u : URLRecord)
    (hbs : special = true → ∀ c ∈ r, c ≠ '\\')
    (h : parseHier sch special r = some u) :
    u.scheme = sch ∧ (∃ hh pp ss, u.kind = .hier hh pp ss) ∧
      validKindQF special u.kind u.query u.fragment = true := by
  rcases hf : splitFirst (fun c => c == '#') r with ⟨f1, f2⟩
  rcases hq : splitFirst (fun c => c == '?') f1 with ⟨q1, q2⟩
  rcases ha : splitFirst (fun c => c == '/') q1 with ⟨a1, a2⟩
  -- subset and character facts for the pieces
  have hf1_sub : ∀ c ∈ f1, c ∈ r := by
    have := splitFirst_fst_sub (fun c => c == '#') r
    rw [hf] at this
    exact this
  have hf1_ne : ∀ c ∈ f1, c ≠ '#' := by
    have := splitFirst_fst (fun c => c == '#') r
    rw [hf] at this
    exact fun c hc => beq_false_ne c '#' (this c hc)
  have hq1_sub : ∀ c ∈ q1, c ∈ f1 := by
    have := splitFirst_fst_sub (fun c => c == '?') f1
    rw [hq] at this
    exact this
  have hq1_ne : ∀ c ∈ q1, c ≠ '?' := by
    have := splitFirst_fst (fun c => c == '?') f1
    rw [hq] at this
    exact fun c hc => beq_false_ne c '?' (this c hc)
  have hquery : ∀ sp2 : Bool, (sp2 = true → ∀ c ∈ r, c ≠ '\\') →
      optOKb (queryOKb sp2) q2 = true := by
    intro sp2 hbs2
    cases q2 with
    | none => rfl
    | some qq =>
      have hqq_sub : ∀ c ∈ qq, c ∈ f1 := by
        refine splitFirst_snd_sub (fun c => c == '?') f1 q1 qq ?_
        rw [hq]
      refine queryOKb_build sp2 qq (fun c hc => hf1_ne c (hqq_sub c hc)) ?_
      exact fun hsp c hc => hbs2 hsp c (hf1_sub c (hqq_sub c hc))
  have hfrag : ∀ sp2 : Bool, (sp2 = true → ∀ c ∈ r, c ≠ '\\') →
      optOKb (fragOKb sp2) f2 = true := by
    intro sp2 hbs2
    cases f2 with
    | none => rfl
    | some ff =>
      have hff_sub : ∀ c ∈ ff, c ∈ r := by
        refine splitFirst_snd_sub (fun c => c == '#') r f1 ff ?_
        rw [hf]
      exact fragOKb_build sp2 ff (fun hsp c hc => hbs2 hsp c (hff_sub c hc))
  cases a2 with
  | none =>
    simp only [parseHier, hf, hq, ha] at h
    rcases hhp : parseHostPort special a1 with _ | ⟨host, port⟩
    · rw [hhp] at h
      exact absurd h (by simp)
    · rw [hhp] at h
      simp only at h
      have hu := (Option.some.inj h).symm
      subst hu
      obtain ⟨hhost, hport, _⟩ := parseHostPort_valid special a1 host port hhp
      refine ⟨rfl, ⟨_, _, _, rfl⟩, ?_⟩
      rw [validKindQF.eq_def]
      simp only
      rw [Bool.and_eq_true, Bool.and_eq_true, Bool.and_eq_true, Bool.and_eq_true,
        Bool.and_eq_true]
      refine ⟨⟨⟨⟨⟨hhost, hport⟩, ?_⟩, ?_⟩, hquery special hbs⟩, hfrag special hbs⟩
      · refine List.all_eq_true.mpr ?_
        intro s hs
        cases hsp : special with
        | false =>
          rw [hsp] at hs
          simp at hs
        | true =>
          rw [hsp] at hs
          simp only [if_pos rfl] at hs
          rcases List.mem_cons.mp hs with rfl | hs'
          · exact segOKb_nil _
          · simp at hs'
      · cases hsp : special with
        | false => rfl
        | true => simp
  | some p =>
    simp only [parseHier, hf, hq, ha] at h
    rcases hhp : parseHostPort special a1 with _ | ⟨host, port⟩
    · rw [hhp] at h
      exact absurd h (by simp)
    · rw [hhp] at h
      simp only at h
      have hu := (Option.some.inj h).symm
      subst hu
      obtain ⟨hhost, hport, _⟩ := parseHostPort_valid special a1 host port hhp
      have hp_sub : ∀ c ∈ p, c ∈ q1 := by
        refine splitFirst_snd_sub (fun c => c == '/') q1 a1 p ?_
        rw [ha]
      refine ⟨rfl, ⟨_, _, _, rfl⟩, ?_⟩
      rw [validKindQF.eq_def]
      simp only
      rw [Bool.and_eq_true, Bool.and_eq_true, Bool.and_eq_true, Bool.and_eq_true,
        Bool.and_eq_true]
      refine ⟨⟨⟨⟨⟨hhost, hport⟩, ?_⟩, ?_⟩, hquery special hbs⟩, hfrag special hbs⟩
      · refine List.all_eq_true.mpr ?_
        intro s hs
        have hdots := rds_no_dots (splitOnChar '/' p) [] (by simp) s hs
        rcases rds_mem (splitOnChar '/' p) [] s hs with hmem | hmem | hmem
        · simp at hmem
        · refine segOKb_build special s ?_ ?_ ?_ hdots.1 hdots.2 ?_
          · exact fun c hc => splitOnChar_not_mem '/' p s hmem c hc
          · exact fun c hc => hq1_ne c (hp_sub c (splitOnChar_sub '/' p s hmem c hc))
          · exact fun c hc =>
              hf1_ne c (hq1_sub c (hp_sub c (splitOnChar_sub '/' p s hmem c hc)))
          · intro hsp c hc
            exact hbs hsp c
              (hf1_sub c (hq1_sub c (hp_sub c (splitOnChar_sub '/' p s hmem c hc))))
        · subst hmem
          exact segOKb_nil special
      · cases hsp : special with
        | false => rfl
        | true =>
          rw [Bool.or_eq_true, Bool.not_eq_true']
          refine Or.inr ?_
          cases hrd : removeDots (splitOnChar '/' p) with
          | nil =>
            exact absurd hrd (rds_ne_nil (splitOnChar '/' p) [] (splitOnChar_ne_nil '/' p))
          | cons x xs => simp

theorem splitFirst_pre_app (p : Char → Bool) (l a : List Char) (r : Option (List Char))
    (h : splitFirst p l = (a, r)) : ∃ t, l = a ++ t := by
  cases r with
  | none => exact ⟨[], by rw [splitFirst_none_eq p l a h]; simp⟩
  | some rr =>
    obtain ⟨d, _, hdec⟩ := splitFirst_decomp p l a rr h
    exact ⟨d :: rr, hdec⟩

theorem parseAbs_valid (l : List Char) (u : URLRecord) (h : parseAbs l = some u) :
    validURL u = true := by
  rcases hss : splitScheme l with _ | ⟨sch, rest⟩
  · simp only [parseAbs, hss] at h
    exact absurd h (by simp)
  · simp only [parseAbs, hss] at h
    obtain ⟨hok, _⟩ := splitScheme_chars l sch rest hss
    by_cases hsp : specialScheme sch = true
    · rw [if_pos hsp] at h
      have hbs2 : ∀ c ∈ (rest.map slashFix).dropWhile (fun c => c == '/'), c ≠ '\\' := by
        intro c hc
        have hc2 : c ∈ rest.map slashFix := (List.dropWhile_sublist _).mem hc
        obtain ⟨c0, _, rfl⟩ := List.mem_map.mp hc2
        exact slashFix_no_bs c0
      obtain ⟨hsch_eq, _, hvk⟩ := parseHier_valid sch true _ u (fun _ => hbs2) h
      rw [validURL, Bool.and_eq_true]
      refine ⟨by rw [hsch_eq]; exact hok, ?_⟩
      rw [hsch_eq, hsp]
      exact hvk
    · rw [if_neg hsp] at h
      rw [Bool.not_eq_true] at hsp
      by_cases hsd : startsDslash rest = true
      · rw [if_pos hsd] at h
        obtain ⟨hsch_eq, _, hvk⟩ := parseHier_valid sch false _ u
          (fun hc => absurd hc (by decide)) h
        rw [validURL, Bool.and_eq_true]
        refine ⟨by rw [hsch_eq]; exact hok, ?_⟩
        rw [hsch_eq, hsp]
        exact hvk
      · rw [if_neg hsd] at h
        rw [Bool.not_eq_true] at hsd
        rcases hf : splitFirst (fun c => c == '#') rest with ⟨f1, f2⟩
        rcases hq2 : splitFirst (fun c => c == '?') f1 with ⟨q1, q2⟩
        simp only [parseOpq, hf, hq2] at h
        have hu := (Option.some.inj h).symm
        subst hu
        -- facts about the opaque path
        have hq1_ne : ∀ c ∈ q1, c ≠ '?' := by
          have := splitFirst_fst (fun c => c == '?') f1
          rw [hq2] at this
          exact fun c hc => beq_false_ne c '?' (this c hc)
        have hq1_sub : ∀ c ∈ q1, c ∈ f1 := by
          have := splitFirst_fst_sub (fun c => c == '?') f1
          rw [hq2] at this
          exact this
        have hf1_ne : ∀ c ∈ f1, c ≠ '#' := by
          have := splitFirst_fst (fun c => c == '#') rest
          rw [hf] at this
          exact fun c hc => beq_false_ne c '#' (this c hc)
        have hq1_sd : startsDslash q1 = false := by
          obtain ⟨t1, ht1⟩ := splitFirst_pre_app (fun c => c == '#') rest f1 f2 hf
          obtain ⟨t2, ht2⟩ := splitFirst_pre_app (fun c => c == '?') f1 q1 q2 hq2
          refine startsDslash_pre q1 (t2 ++ t1) ?_
          rw [← List.append_assoc, ← ht2, ← ht1]
          exact hsd
        rw [validURL, Bool.and_eq_true]
        refine ⟨hok, ?_⟩
        simp only [hsp]
        rw [validKindQF.eq_def]
        simp only
        rw [Bool.and_eq_true, Bool.and_eq_true, Bool.and_eq_true, Bool.and_eq_true,
          Bool.and_eq_true]
        refine ⟨⟨⟨⟨⟨rfl, ?_⟩, ?_⟩, ?_⟩, ?_⟩, ?_⟩
        · rw [contains_eq_false q1 '?' hq1_ne]; rfl
        · rw [contains_eq_false q1 '#' (fun c hc => hf1_ne c (hq1_sub c hc))]; rfl
        · rw [hq1_sd]; rfl
        · cases q2 with
          | none => rfl
          | some qq =>
            have hqq_sub : ∀ c ∈ qq, c ∈ f1 := by
              refine splitFirst_snd_sub (fun c => c == '?') f1 q1 qq ?_
              rw [hq2]
            refine queryOKb_build false qq (fun c hc => hf1_ne c (hqq_sub c hc)) ?_
            exact fun hc => absurd hc (by decide)
        · cases f2 with
          | none => rfl
          | some ff => exact fragOKb_build false ff (fun hc => absurd hc (by decide))

/-! ## Validity of relative resolution -/

theorem resolveRel_valid (input : List Char) (base u : URLRecord)
    (hb : validURL base = true) (h : resolveRel input base = some u) :
    u.scheme = base.scheme ∧
      validKindQF (specialScheme base.scheme) u.kind u.query u.fragment = true := by
  rw [validURL, Bool.and_eq_true] at hb
  obtain ⟨_, hbk⟩ := hb
  rcases base with ⟨bsch, bkind, bq, bf⟩
  simp only at hbk h ⊢
  cases bkind with
  | opq op =>
    cases input with
    | nil =>
      simp only [resolveRel] at h
      exact absurd h (by simp)
    | cons c f =>
      simp only [resolveRel] at h
      by_cases hc : c = '#'
      · rw [if_pos hc] at h
        have hu := (Option.some.inj h).symm
        subst hu
        refine ⟨rfl, ?_⟩
        rw [validKindQF.eq_def] at hbk ⊢
        simp only at hbk ⊢
        rw [Bool.and_eq_true, Bool.and_eq_true] at hbk
        rw [Bool.and_eq_true, Bool.and_eq_true]
        obtain ⟨⟨hk, hq⟩, _⟩ := hbk
        refine ⟨⟨hk, hq⟩, ?_⟩
        have hns : specialScheme bsch = false := by
          rw [Bool.and_eq_true, Bool.and_eq_true, Bool.and_eq_true] at hk
          have := hk.1.1.1
          rwa [Bool.not_eq_true'] at this
        rw [hns]
        exact fragOKb_build false f (fun hcc => absurd hcc (by decide))
      · rw [if_neg hc] at h
        exact absurd h (by simp)
  | hier host port bsegs =>
    simp only [resolveRel] at h
    have hLbs : specialScheme bsch = true →
        ∀ c ∈ (if specialScheme bsch = true then input.map slashFix else input), c ≠ '\\' := by
      intro hsp c hc
      rw [if_pos hsp] at hc
      obtain ⟨c0, _, rfl⟩ := List.mem_map.mp hc
      exact slashFix_no_bs c0
    generalize hL : (if specialScheme bsch = true then input.map slashFix else input) = L at h hLbs
    by_cases hsd : startsDslash L = true
    · rw [if_pos hsd] at h
      by_cases hsp : specialScheme bsch = true
      · rw [if_pos hsp] at h
        obtain ⟨hsch_eq, _, hvk⟩ := parseHier_valid bsch true _ u
          (fun _ c hc => hLbs hsp c ((List.dropWhile_sublist _).mem hc)) h
        refine ⟨hsch_eq, ?_⟩
        rw [hsp]
        exact hvk
      · rw [if_neg hsp] at h
        rw [Bool.not_eq_true] at hsp
        obtain ⟨hsch_eq, _, hvk⟩ := parseHier_valid bsch false _ u
          (fun hcc => absurd hcc (by decide)) h
        refine ⟨hsch_eq, ?_⟩
        rw [hsp]
        exact hvk
    · rw [if_neg hsd] at h
      rcases hfq : splitFirst (fun c => c == '#') L with ⟨f1, f2⟩
      rcases hq2 : splitFirst (fun c => c == '?') f1 with ⟨q1, q2⟩
      simp only [hfq, hq2] at h
      have hf1_sub : ∀ c ∈ f1, c ∈ L := by
        have := splitFirst_fst_sub (fun c => c == '#') L
        rw [hfq] at this
        exact this
      have hf1_ne : ∀ c ∈ f1, c ≠ '#' := by
        have := splitFirst_fst (fun c => c == '#') L
        rw [hfq] at this
        exact fun c hc => beq_false_ne c '#' (this c hc)
      have hq1_sub : ∀ c ∈ q1, c ∈ f1 := by
        have := splitFirst_fst_sub (fun c => c == '?') f1
        rw [hq2] at this
        exact this
      have hq1_ne : ∀ c ∈ q1, c ≠ '?' := by
        have := splitFirst_fst (fun c => c == '?') f1
        rw [hq2] at this
        exact fun c hc => beq_false_ne c '?' (this c hc)
      have hfragOK : optOKb (fragOKb (specialScheme bsch)) f2 = true := by
        cases f2 with
        | none => rfl
        | some ff =>
          have hff_sub : ∀ c ∈ ff, c ∈ L :=
            splitFirst_snd_sub (fun c => c == '#') L f1 ff (by rw [hfq])
          exact fragOKb_build _ ff (fun hsp c hc => hLbs hsp c (hff_sub c hc))
      have hqOK : optOKb (queryOKb (specialScheme bsch)) q2 = true := by
        cases q2 with
        | none => rfl
        | some qq =>
          have hqq_sub : ∀ c ∈ qq, c ∈ f1 :=
            splitFirst_snd_sub (fun c => c == '?') f1 q1 qq (by rw [hq2])
          refine queryOKb_build _ qq (fun c hc => hf1_ne c (hqq_sub c hc)) ?_
          exact fun hsp c hc => hLbs hsp c (hf1_sub c (hqq_sub c hc))
      rw [validKindQF.eq_def] at hbk
      simp only at hbk
      rw [Bool.and_eq_true, Bool.and_eq_true] at hbk
      obtain ⟨⟨hk, hbq⟩, _⟩ := hbk
      rw [Bool.and_eq_true, Bool.and_eq_true, Bool.and_eq_true] at hk
      obtain ⟨⟨⟨hh, hp⟩, hsegsall⟩, hsne⟩ := hk
      cases q1 with
      | nil =>
        cases q2 with
        | none =>
          simp only at h
          have hu := (Option.some.inj h).symm
          subst hu
          refine ⟨rfl, ?_⟩
          rw [validKindQF.eq_def]
          simp only
          rw [Bool.and_eq_true, Bool.and_eq_true]
          refine ⟨⟨?_, hbq⟩, hfragOK⟩
          rw [Bool.and_eq_true, Bool.and_eq_true, Bool.and_eq_true]
          exact ⟨⟨⟨hh, hp⟩, hsegsall⟩, hsne⟩
        | some qq =>
          simp only at h
          have hu := (Option.some.inj h).symm
          subst hu
          refine ⟨rfl, ?_⟩
          rw [validKindQF.eq_def]
          simp only
          rw [Bool.and_eq_true, Bool.and_eq_true]
          refine ⟨⟨?_, hqOK⟩, hfragOK⟩
          rw [Bool.and_eq_true, Bool.and_eq_true, Bool.and_eq_true]
          exact ⟨⟨⟨hh, hp⟩, hsegsall⟩, hsne⟩
      | cons c p' =>
        simp only at h
        by_cases hc : c = '/'
        · rw [if_pos hc] at h
          have hu := (Option.some.inj h).symm
          subst hu
          have hp'_sub : ∀ x ∈ p', x ∈ f1 := fun x hx =>
            hq1_sub x (List.mem_cons_of_mem c hx)
          refine ⟨rfl, ?_⟩
          rw [validKindQF.eq_def]
          simp only
          rw [Bool.and_eq_true, Bool.and_eq_true]
          refine ⟨⟨?_, hqOK⟩, hfragOK⟩
          rw [Bool.and_eq_true, Bool.and_eq_true, Bool.and_eq_true]
          refine ⟨⟨⟨hh, hp⟩, ?_⟩, ?_⟩
          · refine List.all_eq_true.mpr ?_
            intro s hs
            have hdots := rds_no_dots (splitOnChar '/' p') [] (by simp) s hs
            rcases rds_mem (splitOnChar '/' p') [] s hs with hmem | hmem | hmem
            · simp at hmem
            · refine segOKb_build _ s ?_ ?_ ?_ hdots.1 hdots.2 ?_
              · exact fun x hx => splitOnChar_not_mem '/' p' s hmem x hx
              · exact fun x hx => hq1_ne x
                  (List.mem_cons_of_mem c (splitOnChar_sub '/' p' s hmem x hx))
              · exact fun x hx =>
                  hf1_ne x (hp'_sub x (splitOnChar_sub '/' p' s hmem x hx))
              · intro hsp x hx
                exact hLbs hsp x
                  (hf1_sub x (hp'_sub x (splitOnChar_sub '/' p' s hmem x hx)))
            · subst hmem
              exact segOKb_nil _
          · cases hsp : specialScheme bsch with
            | false => rfl
            | true =>
              rw [Bool.or_eq_true, Bool.not_eq_true']
              refine Or.inr ?_
              cases hrd : removeDots (splitOnChar '/' p') with
              | nil =>
                exact absurd hrd
                  (rds_ne_nil (splitOnChar '/' p') [] (splitOnChar_ne_nil '/' p'))
              | cons x xs => simp
        · rw [if_neg hc] at h
          have hu := (Option.some.inj h).symm
          subst hu
          refine ⟨rfl, ?_⟩
          rw [validKindQF.eq_def]
          simp only
          rw [Bool.and_eq_true, Bool.and_eq_true]
          refine ⟨⟨?_, hqOK⟩, hfragOK⟩
          rw [Bool.and_eq_true, Bool.and_eq_true, Bool.and_eq_true]
          refine ⟨⟨⟨hh, hp⟩, ?_⟩, ?_⟩
          · refine List.all_eq_true.mpr ?_
            intro s hs
            have hdots := rds_no_dots (bsegs.dropLast ++ splitOnChar '/' (c :: p')) []
              (by simp) s hs
            rcases rds_mem (bsegs.dropLast ++ splitOnChar '/' (c :: p')) [] s hs
              with hmem | hmem | hmem
            · simp at hmem
            · rcases List.mem_append.mp hmem with hmem2 | hmem2
              · exact List.all_eq_true.mp hsegsall s ((List.dropLast_sublist bsegs).mem hmem2)
              · refine segOKb_build _ s ?_ ?_ ?_ hdots.1 hdots.2 ?_
                · exact fun x hx => splitOnChar_not_mem '/' (c :: p') s hmem2 x hx
                · exact fun x hx => hq1_ne x (splitOnChar_sub '/' (c :: p') s hmem2 x hx)
                · exact fun x hx =>
                    hf1_ne x (hq1_sub x (splitOnChar_sub '/' (c :: p') s hmem2 x hx))
                · intro hsp x hx
                  exact hLbs hsp x
                    (hf1_sub x (hq1_sub x (splitOnChar_sub '/' (c :: p') s hmem2 x hx)))
            · subst hmem
              exact segOKb_nil _
          · cases hsp : specialScheme bsch with
            | false => rfl
            | true =>
              rw [Bool.or_eq_true, Bool.not_eq_true']
              refine Or.inr ?_
              cases hrd : removeDots (bsegs.dropLast ++ splitOnChar '/' (c :: p')) with
              | nil =>
                refine absurd hrd (rds_ne_nil _ [] ?_)
                intro happ
                exact splitOnChar_ne_nil '/' (c :: p') (List.append_eq_nil.mp happ).2
              | cons x xs => simp

theorem resolveURL_valid (v : List Char) (base u : URLRecord) (hb : validURL base = true)
    (h : resolveURL v base = some u) : validURL u = true := by
  have hbok : schemeOKb base.scheme = true := by
    rw [validURL, Bool.and_eq_true] at hb
    exact hb.1
  rcases hss : splitScheme v with _ | ⟨sch, rest⟩
  · simp only [resolveURL, hss] at h
    obtain ⟨hsch_eq, hvk⟩ := resolveRel_valid v base u hb h
    rw [validURL, Bool.and_eq_true, hsch_eq]
    exact ⟨hbok, hvk⟩
  · simp only [resolveURL, hss] at h
    by_cases hcond : (specialScheme sch && (sch.map Char.toLower == base.scheme.map Char.toLower)
        && !startsDslash rest) = true
    · rw [if_pos hcond] at h
      obtain ⟨hsch_eq, hvk⟩ := resolveRel_valid rest base u hb h
      rw [validURL, Bool.and_eq_true, hsch_eq]
      exact ⟨hbok, hvk⟩
    · rw [if_neg hcond] at h
      exact parseAbs_valid v u h

theorem resolveURL_serialized (u base : URLRecord) (hu : validURL u = true) :
    resolveURL (serializeURL u) base = some u := by
  have hps := parseAbs_serialize u hu
  rw [validURL, Bool.and_eq_true] at hu
  obtain ⟨hsch, hkqf⟩ := hu
  rcases u with ⟨sch, kind, q, fr⟩
  simp only at hsch hkqf
  cases kind with
  | hier host port segs =>
    have hser : serializeURL ⟨sch, .hier host port segs, q, fr⟩ =
        sch ++ ':' :: '/' :: '/' ::
          (host ++ serializePort port ++ serializePath segs ++ serializeQF '?' q ++
            serializeQF '#' fr) := by
      simp only [serializeURL, List.cons_append]
    rw [hser] at hps ⊢
    have hss := splitScheme_app sch
      ('/' :: '/' ::
        (host ++ serializePort port ++ serializePath segs ++ serializeQF '?' q ++
          serializeQF '#' fr)) hsch
    simp only [resolveURL, hss]
    rw [if_neg ?_]
    · exact hps
    · rw [startsDslash_cons2]
      simp
  | opq op =>
    have hns : specialScheme sch = false := by
      rw [validKindQF.eq_def] at hkqf
      simp only at hkqf
      rw [Bool.and_eq_true, Bool.and_eq_true] at hkqf
      have hk := hkqf.1.1
      rw [Bool.and_eq_true, Bool.and_eq_true, Bool.and_eq_true] at hk
      have := hk.1.1.1
      rwa [Bool.not_eq_true'] at this
    have hser : serializeURL ⟨sch, .opq op, q, fr⟩ =
        sch ++ ':' :: (op ++ serializeQF '?' q ++ serializeQF '#' fr) := by
      simp only [serializeURL]
    rw [hser] at hps ⊢
    have hss := splitScheme_app sch (op ++ serializeQF '?' q ++ serializeQF '#' fr) hsch
    simp only [resolveURL, hss, hns]
    rw [if_neg (by simp)]
    exact hps

/-! ## Idempotence of the attribute-value rewrite -/

theorem rewriteAttrVal_idem (base : URLRecord) (hb : validURL base = true) (v : String) :
    rewriteAttrVal base (rewriteAttrVal base v) = rewriteAttrVal base v := by
  by_cases hskip : skipVal v = true
  · have h1 : rewriteAttrVal base v = v := by rw [rewriteAttrVal, if_pos hskip]
    rw [h1]
    exact h1
  · rcases hres : resolveURL v.data base with _ | u
    · have h1 : rewriteAttrVal base v = v := by
        rw [rewriteAttrVal, if_neg hskip, hres]
      rw [h1]
      exact h1
    · have h1 : rewriteAttrVal base v = serializeStr u := by
        rw [rewriteAttrVal, if_neg hskip, hres]
      rw [h1]
      have hu : validURL u = true := resolveURL_valid v.data base u hb hres
      by_cases hskip2 : skipVal (serializeStr u) = true
      · rw [rewriteAttrVal, if_pos hskip2]
      · rw [rewriteAttrVal, if_neg hskip2,
          show (serializeStr u).data = serializeURL u from rfl,
          resolveURL_serialized u base hu]

/-! ## Tree-level lemmas about the rewrite pipeline -/

mutual
theorem rwNode_comp (f g : String → List (String × String) → List (String × String)) :
    (n : HNode) → rwNode f (rwNode g n) = rwNode (fun t a => f t (g t a)) n
  | .elem t a ch => by
    show HNode.elem t (f t (g t a)) (rwNodes f (rwNodes g ch)) =
      HNode.elem t (f t (g t a)) (rwNodes (fun t a => f t (g t a)) ch)
    rw [rwNodes_comp f g ch]
  | .text _ => rfl

theorem rwNodes_comp (f g : String → List (String × String) → List (String × String)) :
    (ns : List HNode) → rwNodes f (rwNodes g ns) = rwNodes (fun t a => f t (g t a)) ns
  | [] => rfl
  | n :: ns => by
    show rwNode f (rwNode g n) :: rwNodes f (rwNodes g ns) =
      rwNode (fun t a => f t (g t a)) n :: rwNodes (fun t a => f t (g t a)) ns
    rw [rwNode_comp f g n, rwNodes_comp f g ns]
end

mutual
theorem rwNode_congr (f g : String → List (String × String) → List (String × String))
    (hfg : ∀ t a, f t a = g t a) : (n : HNode) → rwNode f n = rwNode g n
  | .elem t a ch => by
    show HNode.elem t (f t a) (rwNodes f ch) = HNode.elem t (g t a) (rwNodes g ch)
    rw [hfg t a, rwNodes_congr f g hfg ch]
  | .text _ => rfl

theorem rwNodes_congr (f g : String → List (String × String) → List (String × String))
    (hfg : ∀ t a, f t a = g t a) : (ns : List HNode) → rwNodes f ns = rwNodes g ns
  | [] => rfl
  | n :: ns => by
    show rwNode f n :: rwNodes f ns = rwNode g n :: rwNodes g ns
    rw [rwNode_congr f g hfg n, rwNodes_congr f g hfg ns]
end

theorem updAttr_idem (k : String) (g : String → String) (hg : ∀ v, g (g v) = g v)
    (a : List (String × String)) : updAttr k g (updAttr k g a) = updAttr k g a := by
  simp only [updAttr, List.map_map]
  refine List.map_congr_left ?_
  intro p _
  by_cases hk : p.1 = k
  · simp [Function.comp, hk, hg]
  · simp [Function.comp, hk]

theorem sixF_idem (base : URLRecord) (hb : validURL base = true) (t : String)
    (a : List (String × String)) : sixF base t (sixF base t a) = sixF base t a := by
  have hupd : ∀ (attr : String) (a' : List (String × String)),
      updAttr attr (rewriteAttrVal base) (updAttr attr (rewriteAttrVal base) a') =
        updAttr attr (rewriteAttrVal base) a' :=
    fun attr a' => updAttr_idem attr _ (rewriteAttrVal_idem base hb) a'
  by_cases h1 : t = "a"
  · subst h1; simp [sixF, makeAbsStep, hupd]
  by_cases h2 : t = "img"
  · subst h2; simp [sixF, makeAbsStep, hupd]
  by_cases h3 : t = "script"
  · subst h3; simp [sixF, makeAbsStep, hupd]
  by_cases h4 : t = "link"
  · subst h4; simp [sixF, makeAbsStep, hupd]
  by_cases h5 : t = "video"
  · subst h5; simp [sixF, makeAbsStep, hupd]
  by_cases h6 : t = "source"
  · subst h6; simp [sixF, makeAbsStep, hupd]
  · simp [sixF, makeAbsStep, h1, h2, h3, h4, h5, h6]

theorem rewriteAll_eq (base : URLRecord) (d : List HNode) :
    rewriteAll base d = rwNodes (sixF base) d := by
  simp only [rewriteAll, attrClasses, List.foldl, makeAbs]
  rw [rwNodes_comp, rwNodes_comp, rwNodes_comp, rwNodes_comp, rwNodes_comp]
  rfl

theorem rewriteAll_idem (base : URLRecord) (hb : validURL base = true) (d : List HNode) :
    rewriteAll base (rewriteAll base d) = rewriteAll base d := by
  rw [rewriteAll_eq, rewriteAll_eq, rwNodes_comp]
  exact rwNodes_congr _ _ (fun t a => sixF_idem base hb t a) d

/-! ## Counting the probe script blocks -/

theorem isProbe_self : isProbeElem "script" [] [.text probeScriptSrc] = true := by
  rw [isProbeElem, if_pos rfl, if_pos rfl]
  show decide (probeScriptSrc = probeScriptSrc) = true
  rw [decide_eq_true rfl]

theorem probeCountL_append (xs ys : List HNode) :
    probeCountL (xs ++ ys) = probeCountL xs + probeCountL ys := by
  induction xs with
  | nil => simp [probeCountL]
  | cons n ns ih =>
    rw [List.cons_append, probeCountL, probeCountL, ih]
    omega

theorem probeCountL_injected : probeCountL injectedNodes = 1 := by
  show probeCountL [.text "\n", .elem "script" [] [.text probeScriptSrc], .text "\n    "] = 1
  simp [probeCountL, probeCountN, isProbe_self]

theorem probeChild_inject (ch : List HNode) : probeChild (injectNodes ch) = probeChild ch := by
  cases ch with
  | nil => rfl
  | cons n ns =>
    cases ns with
    | nil =>
      cases n with
      | text s => rfl
      | elem t' a' ch' => rfl
    | cons n2 ns2 =>
      rw [injectNodes, injectNodes]
      simp only [probeChild]

theorem isProbeElem_inject (t : String) (a : List (String × String)) (ch : List HNode) :
    isProbeElem t a (injectNodes ch ++ (if t = "body" then injectedNodes else [])) =
      isProbeElem t a ch := by
  by_cases ht : t = "script"
  · subst ht
    rw [if_neg (by decide : ¬("script" = "body")), List.append_nil, isProbeElem, isProbeElem,
      if_pos rfl, if_pos rfl, probeChild_inject]
  · rw [isProbeElem, isProbeElem, if_neg ht, if_neg ht]

mutual
theorem probeCountN_inject : (n : HNode) →
    probeCountN (injectNode n) = probeCountN n + bodyCountN n
  | .elem t a ch => by
    show probeCountN (.elem t a (injectNodes ch ++ (if t = "body" then injectedNodes else []))) = _
    rw [probeCountN, probeCountN, bodyCountN, isProbeElem_inject, probeCountL_append,
      probeCountL_inject ch]
    by_cases hb : t = "body"
    · rw [if_pos hb, if_pos hb, probeCountL_injected]
      omega
    · rw [if_neg hb, if_neg hb]
      show _ + (probeCountL ch + bodyCountL ch + probeCountL []) = _
      rw [probeCountL]
      omega
  | .text _ => rfl

theorem probeCountL_inject : (ns : List HNode) →
    probeCountL (injectNodes ns) = probeCountL ns + bodyCountL ns
  | [] => rfl
  | n :: ns => by
    show probeCountL (injectNode n :: injectNodes ns) = _
    rw [probeCountL, probeCountL, bodyCountL, probeCountN_inject n, probeCountL_inject ns]
    omega
end

mutual
theorem injectNode_nobody : (n : HNode) → bodyCountN n = 0 → injectNode n = n
  | .elem t a ch => fun h => by
    rw [bodyCountN] at h
    have ht : ¬ t = "body" := by
      intro ht
      rw [if_pos ht] at h
      omega
    rw [if_neg ht] at h
    show HNode.elem t a (injectNodes ch ++ (if t = "body" then injectedNodes else [])) = _
    rw [if_neg ht, List.append_nil, injectNodes_nobody ch (by omega)]
  | .text _ => fun _ => rfl

theorem injectNodes_nobody : (ns : List HNode) → bodyCountL ns = 0 → injectNodes ns = ns
  | [] => fun _ => rfl
  | n :: ns => fun h => by
    rw [bodyCountL] at h
    show injectNode n :: injectNodes ns = n :: ns
    rw [injectNode_nobody n (by omega), injectNodes_nobody ns (by omega)]
end

/-! ## The absolutization pass does not change tags, probe blocks or body count -/

theorem sixF_nil (base : URLRecord) (t : String) (a : List (String × String)) :
    sixF base t a = [] ↔ a = [] := by
  have hstep : ∀ (tag attr : String) (a' : List (String × String)),
      makeAbsStep base tag attr t a' = [] ↔ a' = [] := by
    intro tag attr a'
    rw [makeAbsStep]
    by_cases h : t = tag
    · rw [if_pos h, updAttr]
      exact List.map_eq_nil_iff
    · rw [if_neg h]
  rw [sixF, hstep, hstep, hstep, hstep, hstep, hstep]

theorem probeChild_rw (f : String → List (String × String) → List (String × String))
    (ch : List HNode) : probeChild (rwNodes f ch) = probeChild ch := by
  cases ch with
  | nil => rfl
  | cons n ns =>
    cases ns with
    | nil =>
      cases n with
      | text s => rfl
      | elem t' a' ch' => rfl
    | cons n2 ns2 =>
      rw [rwNodes, rwNodes]
      simp only [probeChild]

theorem isProbeElem_rw (f : String → List (String × String) → List (String × String))
    (hnil : ∀ t a, f t a = [] ↔ a = []) (t : String) (a : List (String × String))
    (ch : List HNode) : isProbeElem t (f t a) (rwNodes f ch) = isProbeElem t a ch := by
  by_cases ht : t = "script"
  · subst ht
    by_cases ha : a = []
    · rw [isProbeElem, isProbeElem, if_pos rfl, if_pos rfl, if_pos ha,
        if_pos ((hnil "script" a).mpr ha), probeChild_rw]
    · rw [isProbeElem, isProbeElem, if_pos rfl, if_pos rfl, if_neg ha,
        if_neg (fun hc => ha ((hnil "script" a).mp hc))]
  · rw [isProbeElem, isProbeElem, if_neg ht, if_neg ht]

mutual
theorem probeCountN_rw (f : String → List (String × String) → List (String × String))
    (hnil : ∀ t a, f t a = [] ↔ a = []) :
    (n : HNode) → probeCountN (rwNode f n) = probeCountN n
  | .elem t a ch => by
    show probeCountN (.elem t (f t a) (rwNodes f ch)) = _
    rw [probeCountN, probeCountN, isProbeElem_rw f hnil, probeCountL_rw f hnil ch]
  | .text _ => rfl

theorem probeCountL_rw (f : String → List (String × String) → List (String × String))
    (hnil : ∀ t a, f t a = [] ↔ a = []) :
    (ns : List HNode) → probeCountL (rwNodes f ns) = probeCountL ns
  | [] => rfl
  | n :: ns => by
    show probeCountL (rwNode f n :: rwNodes f ns) = _
    rw [probeCountL, probeCountL, probeCountN_rw f hnil n, probeCountL_rw f hnil ns]
end

mutual
theorem bodyCountN_rw (f : String → List (String × String) → List (String × String)) :
    (n : HNode) → bodyCountN (rwNode f n) = bodyCountN n
  | .elem t a ch => by
    show bodyCountN (.elem t (f t a) (rwNodes f ch)) = _
    rw [bodyCountN, bodyCountN, bodyCountL_rw f ch]
  | .text _ => rfl

theorem bodyCountL_rw (f : String → List (String × String) → List (String × String)) :
    (ns : List HNode) → bodyCountL (rwNodes f ns) = bodyCountL ns
  | [] => rfl
  | n :: ns => by
    show bodyCountL (rwNode f n :: rwNodes f ns) = _
    rw [bodyCountL, bodyCountL, bodyCountN_rw f n, bodyCountL_rw f ns]
end

/-- The full pipeline count law: rewriting a document appends exactly one
probe script block per body element and does not otherwise create or
destroy probe blocks. -/
theorem probeCount_rewriteDoc (base : URLRecord) (d : List HNode) :
    probeCountL (rewriteDoc base d) = probeCountL d + bodyCountL d := by
  rw [rewriteDoc, probeCountL_inject, rewriteAll_eq,
    probeCountL_rw (sixF base) (sixF_nil base) d, bodyCountL_rw (sixF base) d]

/-! ## The claims -/

/-- C10: a present-but-empty `url` query parameter is falsy in JS, so both
handlers answer the missing-parameter 400 without parsing a URL and without
any outbound call. -/
theorem claim_C10 (rw : String → String) (r : Option FetchResp) (hd : Option HeadResp)
    (g : Option GetResp) :
    proxyHandler rw (some "") r = (.missing, []) ∧
    downloadHandler (some "") hd g = (.missing, []) ∧
    proxyStatus .missing = 400 ∧ downloadStatus .missing = 400 ∧
    proxyBody .missing = "Missing url query parameter" ∧
    downloadBody .missing = "Missing url" := by
  refine ⟨?_, ?_, rfl, rfl, rfl, rfl⟩
  · rfl
  · rfl

/-- C1 (amended): both handlers reject `localhost`, `127.0.0.1` and
`192.168.*` hosts with 400 `Local addresses not allowed` and no outbound
call; the `.internal` suffix is rejected by the /proxy handler only —
download.js line 19 has no `.endsWith('.internal')` test. -/
theorem claim_C1_amended (rw : String → String) (t : String) (u : URLRecord)
    (r : Option FetchResp) (hd : Option HeadResp) (g : Option GetResp)
    (ht : t ≠ "") (hu : parseURL t = some u) :
    ((hostnameOf u = "localhost" ∨ hostnameOf u = "127.0.0.1" ∨
        strStarts (hostnameOf u) "192.168." = true ∨
        strEnds (hostnameOf u) ".internal" = true) →
      proxyHandler rw (some t) r = (.localAddr, [])) ∧
    ((hostnameOf u = "localhost" ∨ hostnameOf u = "127.0.0.1" ∨
        strStarts (hostnameOf u) "192.168." = true) →
      downloadHandler (some t) hd g = (.localAddr, [])) ∧
    proxyStatus .localAddr = 400 ∧ downloadStatus .localAddr = 400 ∧
    proxyBody .localAddr = "Local addresses not allowed" ∧
    downloadBody .localAddr = "Local addresses not allowed" := by
  have ht' : (t == "") = false := beq_eq_false_iff_ne.mpr ht
  refine ⟨?_, ?_, rfl, rfl, rfl, rfl⟩
  · intro hloc
    have hl : isLocalProxy (hostnameOf u) = true := by
      rcases hloc with h | h | h | h <;> simp [isLocalProxy, h]
    simp only [proxyHandler, ht', Bool.false_eq_true, if_false, hu, hl, if_true]
  · intro hloc
    have hl : isLocalDownload (hostnameOf u) = true := by
      rcases hloc with h | h | h <;> simp [isLocalDownload, h]
    simp only [downloadHandler, ht', Bool.false_eq_true, if_false, hu, hl, if_true]

/-- C1 witness: a `localhost` target is rejected by both handlers. -/
theorem claim_C1_witness :
    proxyHandler id (some "http://localhost/x") none = (.localAddr, []) ∧
    downloadHandler (some "http://localhost/x") none none = (.localAddr, []) := by
  have h := claim_C1_amended id "http://localhost/x"
    ⟨"http".data, .hier "localhost".data none [['x']], none, none⟩ none none none
    (by decide) (by decide)
  exact ⟨h.1 (Or.inl (by decide)), h.2.1 (Or.inl (by decide))⟩

/-- C1 counterexample: the host `foo.internal` ends in `.internal`, yet the
/download handler performs the outbound HEAD and GET and streams (HTTP
200), instead of the claimed 400 with no outbound request. -/
theorem claim_C1_counterexample :
    (parseURL "http://foo.internal/").map hostnameOf = some "foo.internal" ∧
    downloadHandler (some "http://foo.internal/") (some ⟨none⟩) (some ⟨true, none, true⟩) =
      (.stream "download" "application/octet-stream" true,
        [downloadHeadCall "http://foo.internal/", downloadGetCall "http://foo.internal/"]) := by
  exact ⟨by decide, by decide⟩

/-- C2 (amended): neither handler checks the scheme — each guard inspects
only the hostname: every target whose hostname is outside the respective
denylist proceeds to the outbound fetch (/proxy issues its GET, /download
its HEAD), whatever the scheme. -/
theorem claim_C2_amended (rw : String → String) (t : String) (u : URLRecord)
    (r : Option FetchResp) (hd : Option HeadResp) (g : Option GetResp)
    (ht : t ≠ "") (hu : parseURL t = some u) :
    (isLocalProxy (hostnameOf u) = false →
      (proxyHandler rw (some t) r).2 = [proxyFetchCall t]) ∧
    (isLocalDownload (hostnameOf u) = false →
      downloadHeadCall t ∈ (downloadHandler (some t) hd g).2) := by
  have ht' : (t == "") = false := beq_eq_false_iff_ne.mpr ht
  constructor
  · intro hloc
    simp only [proxyHandler, ht', Bool.false_eq_true, if_false, hu, hloc]
    cases r with
    | none => rfl
    | some rr =>
      show (if (!strIncludes (rr.contentType.getD "") "text/html") = true
          then (ProxyResult.redirect t, [proxyFetchCall t])
          else (ProxyResult.ok (rw rr.body), [proxyFetchCall t])).2 = [proxyFetchCall t]
      by_cases hct : (!(strIncludes (rr.contentType.getD "") "text/html")) = true
      · rw [if_pos hct]
      · rw [if_neg hct]
  · intro hloc
    cases hd with
    | none =>
      simp only [downloadHandler, ht', Bool.false_eq_true, if_false, hu, hloc]
      exact List.mem_singleton.mpr rfl
    | some hh =>
      cases hcl : clExceeds hh.contentLength with
      | true =>
        simp only [downloadHandler, ht', Bool.false_eq_true, if_false, hu, hloc, hcl, if_true]
        exact List.mem_singleton.mpr rfl
      | false =>
        simp only [downloadHandler, ht', Bool.false_eq_true, if_false, hu, hloc, hcl]
        cases g with
        | none => exact List.mem_cons_self _ _
        | some gg =>
          show downloadHeadCall t ∈ (if (!gg.ok) = true
              then (DownloadResult.badGateway, [downloadHeadCall t, downloadGetCall t])
              else (DownloadResult.stream (deriveFilename t)
                  (gg.contentType.getD "application/octet-stream") gg.streamable,
                [downloadHeadCall t, downloadGetCall t])).2
          by_cases hok : (!gg.ok) = true
          · rw [if_pos hok]
            exact List.mem_cons_self _ _
          · rw [if_neg hok]
            exact List.mem_cons_self _ _

/-- C2 witness: an ordinary remote URL is fetched by the /proxy handler,
and the /download handler issues its outbound HEAD for it. -/
theorem claim_C2_witness :
    (proxyHandler id (some "http://example.org/p") none).2 =
      [proxyFetchCall "http://example.org/p"] ∧
    downloadHeadCall "http://example.org/p" ∈
      (downloadHandler (some "http://example.org/p") none none).2 := by
  have h := claim_C2_amended id "http://example.org/p"
    ⟨"http".data, .hier "example.org".data none [['p']], none, none⟩ none none none
    (by decide) (by decide)
  exact ⟨h.1 (by decide), h.2 (by decide)⟩

/-- C2 counterexample: `ftp://example.com/f` parses with scheme `ftp`, is
accepted by both guards, and both handlers issue their outbound fetches —
the claimed http/https-only invariant holds in neither handler. -/
theorem claim_C2_counterexample :
    (parseURL "ftp://example.com/f").map schemeOf = some "ftp" ∧
    (proxyHandler id (some "ftp://example.com/f") (some ⟨some "image/png", ""⟩)).2 =
      [proxyFetchCall "ftp://example.com/f"] ∧
    (downloadHandler (some "ftp://example.com/f") (some ⟨none⟩) (some ⟨true, none, true⟩)).2 =
      [downloadHeadCall "ftp://example.com/f", downloadGetCall "ftp://example.com/f"] := by
  exact ⟨by decide, by decide, by decide⟩

/-- C3 (amended): an unparsable `url` is rejected before any outbound call
by both handlers, but with different statuses: /proxy catches the `new URL`
throw and answers 400 `Invalid URL`, while in /download the throw lands in
the outer catch-all, answering 500 `Download error`. -/
theorem claim_C3_amended (rw : String → String) (t : String) (r : Option FetchResp)
    (hd : Option HeadResp) (g : Option GetResp) (ht : t ≠ "") (hp : parseURL t = none) :
    proxyHandler rw (some t) r = (.invalid, []) ∧
    downloadHandler (some t) hd g = (.err, []) ∧
    proxyStatus .invalid = 400 ∧ proxyBody .invalid = "Invalid URL" ∧
    downloadStatus .err = 500 ∧ downloadBody .err = "Download error" := by
  have ht' : (t == "") = false := beq_eq_false_iff_ne.mpr ht
  refine ⟨?_, ?_, rfl, rfl, rfl, rfl⟩
  · simp only [proxyHandler, ht', Bool.false_eq_true, if_false, hp]
  · simp only [downloadHandler, ht', Bool.false_eq_true, if_false, hp]

/-- C3 witness: `http://` fails to parse; /proxy answers 400, /download 500,
and neither makes an outbound call. -/
theorem claim_C3_witness :
    proxyHandler id (some "http://") none = (.invalid, []) ∧
    downloadHandler (some "http://") none none = (.err, []) := by
  have h := claim_C3_amended id "http://" none none none (by decide) (by decide)
  exact ⟨h.1, h.2.1⟩

/-- C3 counterexample: on the unparsable target `notaurl` the /download
handler responds 500 `Download error`, not the claimed 400. -/
theorem claim_C3_counterexample :
    downloadHandler (some "notaurl") (some ⟨none⟩) (some ⟨true, none, true⟩) = (.err, []) ∧
    downloadStatus .err = 500 ∧ downloadBody .err = "Download error" := by
  exact ⟨by decide, rfl, rfl⟩

theorem clExceeds_some (s : String) (hs : s ≠ "") (n : Int) (hn : jsParseInt s = some n) :
    clExceeds (some s) = decide (n > 30 * 1024 * 1024) := by
  simp only [clExceeds, beq_eq_false_iff_ne.mpr hs, Bool.false_eq_true, if_false, hn]

/-- C4: the /download size gate redirects (302, Location = the original
URL, no GET) exactly when `parseInt(content-length) > 30 * 1024 * 1024`;
otherwise — header absent, empty, NaN, or value at most the threshold —
it proceeds to the GET for streaming. -/
theorem claim_C4 (fu : String) (u : URLRecord) (hd : HeadResp) (g : Option GetResp)
    (hne : fu ≠ "") (hu : parseURL fu = some u)
    (hloc : isLocalDownload (hostnameOf u) = false) :
    (clExceeds hd.contentLength = true →
      downloadHandler (some fu) (some hd) g = (.redirect fu, [downloadHeadCall fu]) ∧
      downloadStatus (.redirect fu) = 302) ∧
    (clExceeds hd.contentLength = false →
      (downloadHandler (some fu) (some hd) g).2 = [downloadHeadCall fu, downloadGetCall fu]) ∧
    (∀ s : String, hd.contentLength = some s → s ≠ "" →
      ∀ n : Int, jsParseInt s = some n →
        (clExceeds hd.contentLength = true ↔ n > 30 * 1024 * 1024)) ∧
    (hd.contentLength = none → clExceeds hd.contentLength = false) := by
  have ht' : (fu == "") = false := beq_eq_false_iff_ne.mpr hne
  refine ⟨?_, ?_, ?_, ?_⟩
  · intro hcl
    simp only [downloadHandler, ht', Bool.false_eq_true, if_false, hu, hloc, hcl, if_true]
    exact ⟨trivial, rfl⟩
  · intro hcl
    simp only [downloadHandler, ht', Bool.false_eq_true, if_false, hu, hloc, hcl]
    cases g with
    | none => rfl
    | some gg =>
      show (if (!gg.ok) = true
          then (DownloadResult.badGateway, [downloadHeadCall fu, downloadGetCall fu])
          else (DownloadResult.stream (deriveFilename fu)
              (gg.contentType.getD "application/octet-stream") gg.streamable,
            [downloadHeadCall fu, downloadGetCall fu])).2 =
        [downloadHeadCall fu, downloadGetCall fu]
      by_cases hok : (!gg.ok) = true
      · rw [if_pos hok]
      · rw [if_neg hok]
  · intro s hs hsne n hn
    rw [hs, clExceeds_some s hsne n hn]
    exact ⟨of_decide_eq_true, decide_eq_true⟩
  · intro h
    rw [h]
    rfl

/-- C4 witness: content-length 31 MiB redirects; 29 MiB and an absent
header proceed to the GET. -/
theorem claim_C4_witness :
    downloadHandler (some "http://h/f.bin") (some ⟨some "32505856"⟩) (some ⟨true, none, true⟩) =
      (.redirect "http://h/f.bin", [downloadHeadCall "http://h/f.bin"]) ∧
    (downloadHandler (some "http://h/f.bin") (some ⟨some "30408704"⟩)
      (some ⟨true, none, true⟩)).2 =
      [downloadHeadCall "http://h/f.bin", downloadGetCall "http://h/f.bin"] ∧
    (downloadHandler (some "http://h/f.bin") (some ⟨none⟩) (some ⟨true, none, true⟩)).2 =
      [downloadHeadCall "http://h/f.bin", downloadGetCall "http://h/f.bin"] := by
  refine ⟨((claim_C4 "http://h/f.bin"
      ⟨"http".data, .hier "h".data none [['f', '.', 'b', 'i', 'n']], none, none⟩
      ⟨some "32505856"⟩ (some ⟨true, none, true⟩) (by decide) (by decide) (by decide)).1
      (by decide)).1,
    (claim_C4 "http://h/f.bin"
      ⟨"http".data, .hier "h".data none [['f', '.', 'b', 'i', 'n']], none, none⟩
      ⟨some "30408704"⟩ (some ⟨true, none, true⟩) (by decide) (by decide) (by decide)).2.1
      (by decide),
    (claim_C4 "http://h/f.bin"
      ⟨"http".data, .hier "h".data none [['f', '.', 'b', 'i', 'n']], none, none⟩
      ⟨none⟩ (some ⟨true, none, true⟩) (by decide) (by decide) (by decide)).2.1
      (by decide)⟩

/-- C5 (amended): after a successful origin fetch the proxy redirects
(302, Location = target) exactly when the content type does not CONTAIN
`text/html` as a substring — proxy.js line 43 uses `includes`, not a
prefix test — and otherwise answers 200 with
`Content-Type: text/html; charset=utf-8` and the rewritten body. -/
theorem claim_C5_amended (rw : String → String) (t : String) (u : URLRecord) (r : FetchResp)
    (ht : t ≠ "") (hu : parseURL t = some u) (hloc : isLocalProxy (hostnameOf u) = false) :
    (proxyHandler rw (some t) (some r) = (.redirect t, [proxyFetchCall t]) ↔
      strIncludes (r.contentType.getD "") "text/html" = false) ∧
    (strIncludes (r.contentType.getD "") "text/html" = true →
      proxyHandler rw (some t) (some r) = (.ok (rw r.body), [proxyFetchCall t]) ∧
      proxyContentType (.ok (rw r.body)) = some "text/html; charset=utf-8") ∧
    proxyStatus (.redirect t) = 302 ∧ proxyStatus (.ok (rw r.body)) = 200 := by
  have ht' : (t == "") = false := beq_eq_false_iff_ne.mpr ht
  have hred : strIncludes (r.contentType.getD "") "text/html" = false →
      proxyHandler rw (some t) (some r) = (.redirect t, [proxyFetchCall t]) := by
    intro hct
    simp only [proxyHandler, ht', Bool.false_eq_true, if_false, hu, hloc, hct, Bool.not_false,
      if_true]
  have hok : strIncludes (r.contentType.getD "") "text/html" = true →
      proxyHandler rw (some t) (some r) = (.ok (rw r.body), [proxyFetchCall t]) := by
    intro hct
    simp only [proxyHandler, ht', Bool.false_eq_true, if_false, hu, hloc, hct, Bool.not_true,
      if_false]
  refine ⟨⟨?_, hred⟩, fun hct => ⟨hok hct, rfl⟩, rfl, rfl⟩
  intro he
  cases hct : strIncludes (r.contentType.getD "") "text/html" with
  | false => rfl
  | true =>
    rw [hok hct] at he
    exact absurd (congrArg Prod.fst he) (by simp)

/-- C5 witness: an `image/png` origin answer redirects; a
`text/html; charset=utf-8` one is rewritten and served as 200. -/
theorem claim_C5_witness :
    proxyHandler id (some "http://example.com/") (some ⟨some "image/png", ""⟩) =
      (.redirect "http://example.com/", [proxyFetchCall "http://example.com/"]) ∧
    proxyHandler id (some "http://example.com/") (some ⟨some "text/html; charset=utf-8", "B"⟩) =
      (.ok "B", [proxyFetchCall "http://example.com/"]) := by
  refine ⟨((claim_C5_amended id "http://example.com/"
      ⟨"http".data, .hier "example.com".data none [[]], none, none⟩ ⟨some "image/png", ""⟩
      (by decide) (by decide) (by decide)).1).mpr (by decide),
    ((claim_C5_amended id "http://example.com/"
      ⟨"http".data, .hier "example.com".data none [[]], none, none⟩
      ⟨some "text/html; charset=utf-8", "B"⟩
      (by decide) (by decide) (by decide)).2.1 (by decide)).1⟩

/-- C5 counterexample: `application/xml; profile=text/html` is not
`text/html`-prefixed, yet the handler serves 200 with the rewritten body
instead of the claimed 302, because the test is a substring search. -/
theorem claim_C5_counterexample :
    strStarts "application/xml; profile=text/html" "text/html" = false ∧
    proxyHandler id (some "http://example.com/")
      (some ⟨some "application/xml; profile=text/html", "B"⟩) =
      (.ok "B", [proxyFetchCall "http://example.com/"]) := by
  exact ⟨by decide, by decide⟩

/-- C6: rewriting a parsed document appends exactly one probe script block
per body element: a document with one body element and no pre-existing
probe block ends with exactly one, and with no body element the injection
is a no-op (not an error) leaving the probe count unchanged. -/
theorem claim_C6 (base : URLRecord) (d : List HNode) :
    probeCountL (rewriteDoc base d) = probeCountL d + bodyCountL d ∧
    (bodyCountL d = 1 → probeCountL d = 0 → probeCountL (rewriteDoc base d) = 1) ∧
    (bodyCountL d = 0 → injectNodes (rewriteAll base d) = rewriteAll base d ∧
      probeCountL (rewriteDoc base d) = probeCountL d) := by
  refine ⟨probeCount_rewriteDoc base d, ?_, ?_⟩
  · intro h1 h0
    rw [probeCount_rewriteDoc base d, h1, h0]
  · intro h0
    refine ⟨?_, ?_⟩
    · apply injectNodes_nobody
      rw [rewriteAll_eq, bodyCountL_rw, h0]
    · rw [probeCount_rewriteDoc base d, h0]
      exact Nat.add_zero _

/-- C6 witness: a one-body document gains exactly one probe block; a
body-less document is left without injection. -/
theorem claim_C6_witness :
    probeCountL (rewriteDoc ⟨"http".data, .hier "h".data none [[]], none, none⟩
      [.elem "html" [] [.elem "body" [] []]]) = 1 ∧
    injectNodes (rewriteAll ⟨"http".data, .hier "h".data none [[]], none, none⟩
        [.elem "p" [] []]) =
      rewriteAll ⟨"http".data, .hier "h".data none [[]], none, none⟩ [.elem "p" [] []] := by
  exact ⟨(claim_C6 ⟨"http".data, .hier "h".data none [[]], none, none⟩
      [.elem "html" [] [.elem "body" [] []]]).2.1 (by decide) (by decide),
    ((claim_C6 ⟨"http".data, .hier "h".data none [[]], none, none⟩
      [.elem "p" [] []]).2.2 (by decide)).1⟩

/-- C7: the per-value transform of `makeAbs` skips empty and
`data:`/`mailto:`/`javascript:`/`#`-prefixed values, otherwise replaces the
value by its resolution against the base, keeps the value whenever
resolution throws (never request-fatal), and an element without the target
attribute is left unchanged. -/
theorem claim_C7 (base : URLRecord) (v : String) :
    (v = "" → rewriteAttrVal base v = v) ∧
    (skipVal v = true → rewriteAttrVal base v = v) ∧
    (skipVal v = false →
      (∀ u, resolveURL v.data base = some u → rewriteAttrVal base v = serializeStr u) ∧
      (resolveURL v.data base = none → rewriteAttrVal base v = v)) ∧
    (∀ (k : String) (g : String → String) (a : List (String × String)),
      (∀ p ∈ a, p.1 ≠ k) → updAttr k g a = a) := by
  refine ⟨?_, ?_, ?_, ?_⟩
  · intro hv
    subst hv
    rw [rewriteAttrVal, if_pos (by decide)]
  · intro hs
    rw [rewriteAttrVal, if_pos hs]
  · intro hs
    refine ⟨?_, ?_⟩
    · intro u hu
      rw [rewriteAttrVal, if_neg (by simp [hs]), hu]
    · intro hu
      rw [rewriteAttrVal, if_neg (by simp [hs]), hu]
  · intro k g a ha
    rw [updAttr]
    have hfix : ∀ p ∈ a, (fun p => if p.1 = k then (p.1, g p.2) else p) p = p := by
      intro p hp
      exact if_neg (ha p hp)
    exact (List.map_congr_left hfix).trans (List.map_id a)

/-- C7 witness: a fragment value is skipped, a relative value is resolved
against the base, and an unresolvable value is kept. -/
theorem claim_C7_witness :
    rewriteAttrVal ⟨"https".data, .hier "example.com".data none [['a'], ['b']], none, none⟩
      "#top" = "#top" ∧
    rewriteAttrVal ⟨"https".data, .hier "example.com".data none [['a'], ['b']], none, none⟩
      "c/d" = "https://example.com/a/c/d" ∧
    rewriteAttrVal ⟨"https".data, .hier "example.com".data none [['a'], ['b']], none, none⟩
      "http://" = "http://" := by
  refine ⟨(claim_C7 ⟨"https".data, .hier "example.com".data none [['a'], ['b']], none, none⟩
      "#top").2.1 (by decide), ?_,
    ((claim_C7 ⟨"https".data, .hier "example.com".data none [['a'], ['b']], none, none⟩
      "http://").2.2.1 (by decide)).2 (by decide)⟩
  have h := ((claim_C7 ⟨"https".data, .hier "example.com".data none [['a'], ['b']], none, none⟩
      "c/d").2.2.1 (by decide)).1
    ⟨"https".data, .hier "example.com".data none [['a'], ['c'], ['d']], none, none⟩ (by decide)
  rw [h]
  decide

/-- C8 (amended): applying the attribute-rewriting pass twice with the same
base equals applying it once, both for a single attribute value and for the
whole six-class document pass; but an already-absolute value is not always
left unchanged — resolution normalises it once (see the counterexample). -/
theorem claim_C8_amended (t : String) (base : URLRecord) (hb : parseURL t = some base) :
    (∀ v, rewriteAttrVal base (rewriteAttrVal base v) = rewriteAttrVal base v) ∧
    (∀ d, rewriteAll base (rewriteAll base d) = rewriteAll base d) := by
  have hv : validURL base = true := parseAbs_valid t.data base hb
  exact ⟨rewriteAttrVal_idem base hv, rewriteAll_idem base hv⟩

/-- C8 witness: idempotence at a concrete value and a concrete document. -/
theorem claim_C8_witness :
    rewriteAttrVal ⟨"https".data, .hier "example.com".data none [['a'], ['b']], none, none⟩
      (rewriteAttrVal ⟨"https".data, .hier "example.com".data none [['a'], ['b']], none, none⟩
        "c/d") =
      rewriteAttrVal ⟨"https".data, .hier "example.com".data none [['a'], ['b']], none, none⟩
        "c/d" ∧
    rewriteAll ⟨"https".data, .hier "example.com".data none [['a'], ['b']], none, none⟩
      (rewriteAll ⟨"https".data, .hier "example.com".data none [['a'], ['b']], none, none⟩
        [.elem "a" [("href", "x")] []]) =
      rewriteAll ⟨"https".data, .hier "example.com".data none [['a'], ['b']], none, none⟩
        [.elem "a" [("href", "x")] []] := by
  have h := claim_C8_amended "https://example.com/a/b"
    ⟨"https".data, .hier "example.com".data none [['a'], ['b']], none, none⟩ (by decide)
  exact ⟨h.1 "c/d", h.2 [.elem "a" [("href", "x")] []]⟩

/-- C8 counterexample: `http://example.com` is an absolute URL that is not
skipped, yet one rewrite changes it to the normalised `http://example.com/`
— so rewriting already-absolute values is not always a no-op. -/
theorem claim_C8_counterexample :
    (parseURL "http://example.com").isSome = true ∧
    skipVal "http://example.com" = false ∧
    rewriteAttrVal ⟨"https".data, .hier "example.org".data none [[]], none, none⟩
      "http://example.com" = "http://example.com/" ∧
    "http://example.com/" ≠ "http://example.com" := by
  exact ⟨by decide, by decide, by decide, by decide⟩

theorem proxyHandler_calls (rw : String → String) (t? : Option String) (r : Option FetchResp) :
    (proxyHandler rw t? r).2 = [] ∨
      ∃ t, t? = some t ∧ (proxyHandler rw t? r).2 = [proxyFetchCall t] := by
  cases t? with
  | none => exact Or.inl rfl
  | some t =>
    by_cases h0 : (t == "") = true
    · refine Or.inl ?_
      simp only [proxyHandler, h0, if_true]
    · have h0' : (t == "") = false := by
        cases hb : (t == "") with
        | false => rfl
        | true => exact absurd hb h0
      cases hu : parseURL t with
      | none =>
        refine Or.inl ?_
        simp only [proxyHandler, h0', Bool.false_eq_true, if_false, hu]
      | some u =>
        by_cases hl : isLocalProxy (hostnameOf u) = true
        · refine Or.inl ?_
          simp only [proxyHandler, h0', Bool.false_eq_true, if_false, hu, hl, if_true]
        · have hl' : isLocalProxy (hostnameOf u) = false := by
            cases hb : isLocalProxy (hostnameOf u) with
            | false => rfl
            | true => exact absurd hb hl
          refine Or.inr ⟨t, rfl, ?_⟩
          simp only [proxyHandler, h0', Bool.false_eq_true, if_false, hu, hl']
          cases r with
          | none => rfl
          | some rr =>
            show (if (!strIncludes (rr.contentType.getD "") "text/html") = true
                then (ProxyResult.redirect t, [proxyFetchCall t])
                else (ProxyResult.ok (rw rr.body), [proxyFetchCall t])).2 = [proxyFetchCall t]
            by_cases hct : (!strIncludes (rr.contentType.getD "") "text/html") = true
            · rw [if_pos hct]
            · rw [if_neg hct]

theorem downloadHandler_calls (fu? : Option String) (hd : Option HeadResp) (g : Option GetResp) :
    (downloadHandler fu? hd g).2 = [] ∨
      ∃ fu, fu? = some fu ∧
        ((downloadHandler fu? hd g).2 = [downloadHeadCall fu] ∨
          (downloadHandler fu? hd g).2 = [downloadHeadCall fu, downloadGetCall fu]) := by
  cases fu? with
  | none => exact Or.inl rfl
  | some fu =>
    by_cases h0 : (fu == "") = true
    · refine Or.inl ?_
      simp only [downloadHandler, h0, if_true]
    · have h0' : (fu == "") = false := by
        cases hb : (fu == "") with
        | false => rfl
        | true => exact absurd hb h0
      cases hu : parseURL fu with
      | none =>
        refine Or.inl ?_
        simp only [downloadHandler, h0', Bool.false_eq_true, if_false, hu]
      | some u =>
        by_cases hl : isLocalDownload (hostnameOf u) = true
        · refine Or.inl ?_
          simp only [downloadHandler, h0', Bool.false_eq_true, if_false, hu, hl, if_true]
        · have hl' : isLocalDownload (hostnameOf u) = false := by
            cases hb : isLocalDownload (hostnameOf u) with
            | false => rfl
            | true => exact absurd hb hl
          refine Or.inr ⟨fu, rfl, ?_⟩
          simp only [downloadHandler, h0', Bool.false_eq_true, if_false, hu, hl']
          cases hd with
          | none => exact Or.inl rfl
          | some hh =>
            by_cases hcl : clExceeds hh.contentLength = true
            · refine Or.inl ?_
              simp only [hcl, if_true]
            · have hcl' : clExceeds hh.contentLength = false := by
                cases hb : clExceeds hh.contentLength with
                | false => rfl
                | true => exact absurd hb hcl
              refine Or.inr ?_
              simp only [hcl', Bool.false_eq_true, if_false]
              cases g with
              | none => rfl
              | some gg =>
                show (if (!gg.ok) = true
                    then (DownloadResult.badGateway,
                      [downloadHeadCall fu, downloadGetCall fu])
                    else (DownloadResult.stream (deriveFilename fu)
                        (gg.contentType.getD "application/octet-stream") gg.streamable,
                      [downloadHeadCall fu, downloadGetCall fu])).2 =
                  [downloadHeadCall fu, downloadGetCall fu]
                by_cases hok : (!gg.ok) = true
                · rw [if_pos hok]
                · rw [if_neg hok]

/-- C9 (amended): the /proxy GET always carries the explicit identifying
User-Agent header, but download.js passes no headers at all: its HEAD and
GET go out without an explicit User-Agent. -/
theorem claim_C9_amended (rw : String → String) (t? : Option String) (r : Option FetchResp)
    (fu? : Option String) (hd : Option HeadResp) (g : Option GetResp) :
    (∀ c ∈ (proxyHandler rw t? r).2,
      c.headers = [("User-Agent", "Mozilla/5.0 (compatible; VercelProxy/1.0)")]) ∧
    (∀ c ∈ (downloadHandler fu? hd g).2, c.headers = []) := by
  constructor
  · intro c hc
    rcases proxyHandler_calls rw t? r with h | ⟨t, _, h⟩
    · rw [h] at hc
      simp at hc
    · rw [h] at hc
      rcases List.mem_cons.mp hc with rfl | hc'
      · rfl
      · simp at hc'
  · intro c hc
    rcases downloadHandler_calls fu? hd g with h | ⟨fu, _, h | h⟩
    · rw [h] at hc
      simp at hc
    · rw [h] at hc
      rcases List.mem_cons.mp hc with rfl | hc'
      · rfl
      · simp at hc'
    · rw [h] at hc
      rcases List.mem_cons.mp hc with rfl | hc'
      · rfl
      · rcases List.mem_cons.mp hc' with rfl | hc''
        · rfl
        · simp at hc''

/-- C9 witness: the headers of concrete outbound calls made by the two
handlers. -/
theorem claim_C9_witness :
    (proxyFetchCall "http://example.net/").headers =
      [("User-Agent", "Mozilla/5.0 (compatible; VercelProxy/1.0)")] ∧
    (downloadHeadCall "http://example.net/f").headers = [] := by
  refine ⟨(claim_C9_amended id (some "http://example.net/") (some ⟨some "text/html", "x"⟩)
      (some "http://example.net/f") (some ⟨none⟩) (some ⟨true, none, true⟩)).1
      (proxyFetchCall "http://example.net/") (by decide),
    (claim_C9_amended id (some "http://example.net/") (some ⟨some "text/html", "x"⟩)
      (some "http://example.net/f") (some ⟨none⟩) (some ⟨true, none, true⟩)).2
      (downloadHeadCall "http://example.net/f") (by decide)⟩

/-- C9 counterexample: the /download handler issues its HEAD and GET with
an empty header list — no explicit User-Agent on those outbound requests,
contrary to the claim that every outbound request carries one. -/
theorem claim_C9_counterexample :
    (downloadHandler (some "http://example.com/a") (some ⟨none⟩) (some ⟨true, none, true⟩)).2 =
      [downloadHeadCall "http://example.com/a", downloadGetCall "http://example.com/a"] ∧
    (downloadHeadCall "http://example.com/a").headers = [] ∧
    (downloadGetCall "http://example.com/a").headers = [] := by
  exact ⟨by decide, rfl, rfl⟩

end Smart
